import Mathlib

set_option maxRecDepth 16384

/-!
Verification of the DEFLATE bit emitter in src/src/deflate.rs (repository
goolmoos/gziper) against its natural-language specification.

Modelling conventions:
- Machine integers are `Nat`; `u32` overflow points in the source are modelled
  with explicit `% 2 ^ 32` (release-mode wrapping), and `u8` addition with
  `% 256`.
- The borrowed byte sink `out: &mut T` is modelled as the list of bytes written
  so far, together with a parameter `snk : Nat → Bool` telling whether the
  underlying `write_all` succeeds when the given number of bytes has already
  been written.  The source calls `.unwrap()` on every sink write, so a failed
  write is a Rust panic; panics (and out-of-bounds `Vec` indexing) are modelled
  by `Option`, with `none` for the panic.
- The modules `crate::huffman`, `lempel_ziv` and `block_splitter` are not under
  src/; the definitions below that stand for them are modelled from the spec
  and say so in their doc comments.
-/

namespace Gziper

/-- Modelled from the spec: the `(code, length)` pair `huffman::Code` of the
`huffman` module (not under src/); shape per spec section 3 (HuffmanCode) and
the use sites `huffman_code.code` / `huffman_code.length` in src/src/deflate.rs. -/
structure HuffmanCode where
  code : Nat
  length : Nat
deriving DecidableEq

/-- Modelled from the spec: `huffman::Tree`, a vector indexed by symbol id
producing a `HuffmanCode` (spec section 3). -/
def Tree := List HuffmanCode

/-- Reverse the low `len` bits of `c` (spec section 4.4 step 4: store the
canonical code bit-reversed within `length` bits). -/
def bitRev : Nat → Nat → Nat
  | 0, _ => 0
  | n + 1, c => c % 2 * 2 ^ n + bitRev n (c / 2)

/-- First canonical code of each code length (spec section 4.4 step 2:
`next_code[n] = (next_code[n-1] + count[n-1]) << 1` with `next_code[1] = 0`). -/
def firstCode (lens : List Nat) : Nat → Nat
  | 0 => 0
  | 1 => 0
  | n + 2 => (firstCode lens (n + 1) + lens.countP (fun l => l = n + 1)) * 2

/-- Modelled from the spec: the code-assignment part of `huffman::calc_codes`
(the Huffman Code Builder, spec section 4.4; the `huffman` module is not
under src/).  The symbol at index `i` with nonzero length `n` receives the
`k`-th canonical code of length `n`, where `k` is the number of earlier
symbols of the same length (step 3), stored bit-reversed (step 4).  Length 0
means the symbol is unused and its code field is meaningless (stored as 0). -/
def calc_codes_core (lens : List Nat) : List HuffmanCode :=
  (List.range lens.length).map (fun i =>
    let n := lens.getD i 0
    if n = 0 then ⟨0, 0⟩
    else ⟨bitRev n (firstCode lens n + (lens.take i).countP (fun l => l = n)), n⟩)

/-- Modelled from the spec: the error condition of `huffman::calc_codes`
(spec section 4.4: the builder fails when assigned codes overflow their
length).  At each used length `n`, the codes assigned are
`firstCode n, ..., firstCode n + count n - 1`; they overflow when the last
one reaches `2 ^ n`. -/
def calc_codes_valid (lens : List Nat) : Bool :=
  (List.range (lens.foldr max 0 + 1)).all fun n =>
    (n == 0) || (lens.countP (fun l => l = n) == 0) ||
      decide (firstCode lens n + lens.countP (fun l => l = n) ≤ 2 ^ n)

/-- Modelled from the spec: `huffman::calc_codes` (spec section 4.4; the
`huffman` module is not under src/): the canonical code assignment, failing
with `InvalidCodeLengths` (modelled `none`) when assigned codes overflow
their length. -/
def calc_codes (lens : List Nat) : Option (List HuffmanCode) :=
  if calc_codes_valid lens then some (calc_codes_core lens) else none

/-- Modelled from the spec: `huffman::LITERAL_FIXED_CODES` (spec section 4.3
step 3: symbols 0..=143 length 8, 144..=255 length 9, 256..=279 length 7,
280..=287 length 8). -/
def LITERAL_FIXED_CODES : List Nat :=
  List.replicate 144 8 ++ List.replicate 112 9 ++ List.replicate 24 7 ++ List.replicate 8 8

/-- Modelled from the spec: `huffman::DISTANCE_FIXED_CODES` (spec section 4.3
step 3: all 30 distance symbols length 5). -/
def DISTANCE_FIXED_CODES : List Nat :=
  List.replicate 30 5

/-- Translation of `Token` (src/src/deflate.rs lines 8-11). -/
inductive Token where
  | Literal (b : Nat)
  | Repeat (len dist : Nat)
deriving DecidableEq

/-- Translation of `block_splitter::Block` (module not under src/); shape per spec section 3:
fixed-codes blocks carry tokens, dynamic-codes blocks also carry the two
code-length vectors, exactly as destructured by `deflate` (lines 20-29). -/
inductive Block where
  | FixedCodes (tokens : List Token)
  | DynamicCodes (tokens : List Token) (literal_code_lens distance_code_lens : List Nat)
deriving DecidableEq

/-- Whether the sink accepts a `write_all` when the given number of bytes has
already been written. -/
def Sink := Nat → Bool

/-- A sink that never fails (for example `Vec<u8>`). -/
def okSink : Sink := fun _ => true

/-- Translation of `LEN_TO_CODE` (src/src/deflate.rs lines 151-182), rows
`(len_start, len_end, extra_bits, code)`. -/
def LEN_TO_CODE : List (Nat × Nat × Nat × Nat) := [
(3  , 4  , 0, 257),
(4  , 5  , 0, 258),
(5  , 6  , 0, 259),
(6  , 7  , 0, 260),
(7  , 8  , 0, 261),
(8  , 9  , 0, 262),
(9  , 10 , 0, 263),
(10 , 11 , 0, 264),
(11 , 13 , 1, 265),
(13 , 15 , 1, 266),
(15 , 17 , 1, 267),
(17 , 19 , 1, 268),
(19 , 23 , 2, 269),
(23 , 27 , 2, 270),
(27 , 31 , 2, 271),
(31 , 35 , 2, 272),
(35 , 43 , 3, 273),
(43 , 51 , 3, 274),
(51 , 59 , 3, 275),
(59 , 67 , 3, 276),
(67 , 83 , 4, 277),
(83 , 99 , 4, 278),
(99 , 115, 4, 279),
(115, 131, 4, 280),
(131, 163, 5, 281),
(163, 195, 5, 282),
(195, 227, 5, 283),
(227, 258, 5, 284),
(258, 259, 0, 285)]

/-- Translation of `DIST_TO_CODE` (src/src/deflate.rs lines 184-216), rows
`(dist_start, dist_end, extra_bits, code)`. -/
def DIST_TO_CODE : List (Nat × Nat × Nat × Nat) := [
(1    , 2    , 0 , 0 ),
(2    , 3    , 0 , 1 ),
(3    , 4    , 0 , 2 ),
(4    , 5    , 0 , 3 ),
(5    , 7    , 1 , 4 ),
(7    , 9    , 1 , 5 ),
(9    , 13   , 2 , 6 ),
(13   , 17   , 2 , 7 ),
(17   , 25   , 3 , 8 ),
(25   , 33   , 3 , 9 ),
(33   , 49   , 4 , 10),
(49   , 65   , 4 , 11),
(65   , 97   , 5 , 12),
(97   , 129  , 5 , 13),
(129  , 193  , 6 , 14),
(193  , 257  , 6 , 15),
(257  , 385  , 7 , 16),
(385  , 513  , 7 , 17),
(513  , 769  , 8 , 18),
(769  , 1025 , 8 , 19),
(1025 , 1537 , 9 , 20),
(1537 , 2049 , 9 , 21),
(2049 , 3073 , 10, 22),
(3073 , 4097 , 10, 23),
(4097 , 6145 , 11, 24),
(6145 , 8193 , 11, 25),
(8193 , 12289, 12, 26),
(12289, 16385, 12, 27),
(16385, 24577, 13, 28),
(24577, 32769, 13, 29)]

/-- State of `DeflateWriter` (src/src/deflate.rs lines 33-40); `out` is the
byte list written to the sink so far. -/
structure WState where
  out : List Nat
  curr_bytes : Nat
  curr_full_bits : Nat
  literal_tree : List HuffmanCode
  distance_tree : List HuffmanCode
  in_block : Bool
deriving DecidableEq

/-- Translation of `DeflateWriter::new` (src/src/deflate.rs lines 43-52). -/
def new : WState :=
  { out := []
    curr_bytes := 0
    curr_full_bits := 0
    literal_tree := []
    distance_tree := []
    in_block := false }

/-- The flush loop of `write_bits` (src/src/deflate.rs lines 59-63):
while `curr_full_bits >= 8`, send the low byte of `curr_bytes` to the sink
(`none` models the panic of `.unwrap()` when the sink write fails), then
`curr_bytes >>= 8` and `curr_full_bits -= 8`.  The `fb + 8` pattern is the
loop guard `curr_full_bits >= 8`. -/
def flushLoop (snk : Sink) : Nat → Nat → List Nat → Option (Nat × Nat × List Nat)
  | cb, fb + 8, out =>
    if snk out.length then flushLoop snk (cb >>> 8) fb (out ++ [cb &&& 255]) else none
  | cb, fb, out => some (cb, fb, out)

/-- Translation of `DeflateWriter::write_bits` (src/src/deflate.rs lines 54-64).  The `u32`
shift `bits << curr_full_bits` wraps mod `2 ^ 32`; the `u8` addition
`curr_full_bits += len` wraps mod 256.  In every state the program reaches,
`curr_full_bits < 8` before the call and the written value fits in 16 bits
(the comment in the source says 16 bit max), so neither wrap is observable. -/
def write_bits (snk : Sink) (s : WState) (bits len : Nat) : Option WState :=
  let cb := s.curr_bytes ||| ((bits <<< s.curr_full_bits) % 2 ^ 32)
  let fb := (s.curr_full_bits + len) % 256
  (flushLoop snk cb fb s.out).map fun r =>
    { s with curr_bytes := r.1, curr_full_bits := r.2.1, out := r.2.2 }

/-- Run a sequence of `write_bits` calls in order. -/
def write_bits_list (snk : Sink) : WState → List (Nat × Nat) → Option WState
  | s, [] => some s
  | s, p :: rest => (write_bits snk s p.1 p.2).bind fun s1 => write_bits_list snk s1 rest

/-- Wrapping `u32` subtraction (release semantics of the `len - len_start` and
`dist - dist_start` subtractions in `write`); for `b ≤ a < 2 ^ 32` it is the
ordinary difference. -/
def sub_u32 (a b : Nat) : Nat := (a + 2 ^ 32 - b) % 2 ^ 32

/-- Translation of `DeflateWriter::write` (src/src/deflate.rs lines 66-91).  The
`for ... if value < end { ...; break }` searches are `List.find?` on the first
row whose second component exceeds the value; when no row matches, the loop
falls through and nothing is emitted.  Tree indexing is `get?`, with `none`
for the Rust out-of-bounds panic. -/
def write (snk : Sink) (s : WState) (t : Token) : Option WState :=
  match t with
  | .Literal value =>
      (s.literal_tree.get? value).bind fun hc => write_bits snk s hc.code hc.length
  | .Repeat len dist =>
      Option.bind
        (match LEN_TO_CODE.find? (fun r => len < r.2.1) with
          | none => some s
          | some r =>
              (s.literal_tree.get? r.2.2.2).bind fun hc =>
                (write_bits snk s hc.code hc.length).bind fun s2 =>
                  write_bits snk s2 (sub_u32 len r.1) r.2.2.1)
        fun s1 =>
          match DIST_TO_CODE.find? (fun r => dist < r.2.1) with
          | none => some s1
          | some r =>
              (s1.distance_tree.get? r.2.2.2).bind fun hc =>
                (write_bits snk s1 hc.code hc.length).bind fun s2 =>
                  write_bits snk s2 (sub_u32 dist r.1) r.2.2.1

/-- The end-of-block snippet repeated at the top of both block constructors
(src/src/deflate.rs lines 94-98 and 108-112): if a block is open, emit the
code of symbol 256 under the current literal tree. -/
def end_prior_block (snk : Sink) (s : WState) : Option WState :=
  if s.in_block then
    (s.literal_tree.get? 256).bind fun hc => write_bits snk s hc.code hc.length
  else some s

/-- Installation of freshly built trees, shared by the tails of both block
constructors (src/src/deflate.rs lines 103-104 and 135-136): a failure of
the builder (the spec error `InvalidCodeLengths`) propagates. -/
def install_trees (literal_lens distance_lens : List Nat) (s : WState) : Option WState :=
  (calc_codes literal_lens).bind fun lt =>
    (calc_codes distance_lens).bind fun dt =>
      some { s with literal_tree := lt, distance_tree := dt }

/-- Translation of `DeflateWriter::new_fixed_codes_block` (src/src/deflate.rs lines 93-105). -/
def new_fixed_codes_block (snk : Sink) (s : WState) (is_final : Bool) : Option WState :=
  (end_prior_block snk s).bind fun s0 =>
    (write_bits snk { s0 with in_block := true } (if is_final then 1 else 0) 1).bind fun s1 =>
      (write_bits snk s1 1 1).bind fun s2 =>
        (write_bits snk s2 0 1).bind fun s3 =>
          install_trees LITERAL_FIXED_CODES DISTANCE_FIXED_CODES s3

/-- The permuted order of code-length-code lengths
(src/src/deflate.rs line 121). -/
def code_len_of_code_order : List Nat :=
  [16, 17, 18, 0, 8, 7, 9, 6, 10, 5, 11, 4, 12, 3, 13, 2, 14, 1, 15]

/-- The code lengths of the code-length alphabet (src/src/deflate.rs line 122). -/
def code_len_of_code : List Nat :=
  [4, 4, 4, 4, 4, 4, 4, 4, 4, 4, 4, 4, 4, 4, 4, 4, 0, 0, 0]

/-- Translation of `DeflateWriter::new_dynamic_codes_block` (src/src/deflate.rs lines
107-137).  Slice and tree indexing is `get?`, with `none` for the Rust
out-of-bounds panic; the three `for i in 0..n` loops are folds over
`List.range n`. -/
def new_dynamic_codes_block (snk : Sink) (s : WState) (is_final : Bool)
    (literal_code_lens distance_code_lens : List Nat) : Option WState :=
  (end_prior_block snk s).bind fun s0 =>
  (write_bits snk { s0 with in_block := true } (if is_final then 1 else 0) 1).bind fun s1 =>
  (write_bits snk s1 0 1).bind fun s2 =>
  (write_bits snk s2 1 1).bind fun s3 =>
  (write_bits snk s3 (286 - 257) 5).bind fun s4 =>
  (write_bits snk s4 (30 - 1) 5).bind fun s5 =>
  (write_bits snk s5 (19 - 4) 4).bind fun s6 =>
  (calc_codes code_len_of_code).bind fun code_len_tree =>
  ((List.range 19).foldlM (fun st i =>
      (code_len_of_code_order.get? i).bind fun j =>
        (code_len_of_code.get? j).bind fun v =>
          write_bits snk st v 3) s6).bind fun s7 =>
  ((List.range 286).foldlM (fun st i =>
      (literal_code_lens.get? i).bind fun v =>
        (code_len_tree.get? v).bind fun hc =>
          write_bits snk st hc.code hc.length) s7).bind fun s8 =>
  ((List.range 30).foldlM (fun st i =>
      (distance_code_lens.get? i).bind fun v =>
        (code_len_tree.get? v).bind fun hc =>
          write_bits snk st hc.code hc.length) s8).bind fun s9 =>
  install_trees literal_code_lens distance_code_lens s9

/-- Translation of `Drop for DeflateWriter` (src/src/deflate.rs lines 140-149): emit the code
of symbol 256 under the current literal tree, then, if the bit buffer is
non-empty, send the remaining low byte to the sink. -/
def drop (snk : Sink) (s : WState) : Option WState :=
  (s.literal_tree.get? 256).bind fun hc =>
    (write_bits snk s hc.code hc.length).bind fun s1 =>
      if 0 < s1.curr_full_bits then
        if snk s1.out.length then some { s1 with out := s1.out ++ [s1.curr_bytes &&& 255] }
        else none
      else some s1

/-- One iteration of the block loop of `deflate` (src/src/deflate.rs lines
20-29): start the block of the matching kind, then write its tokens. -/
def emit_block (snk : Sink) (is_last : Bool) (b : Block) (s : WState) : Option WState :=
  match b with
  | .FixedCodes tokens =>
      (new_fixed_codes_block snk s is_last).bind fun s1 =>
        tokens.foldlM (fun s2 t => write snk s2 t) s1
  | .DynamicCodes tokens literal_code_lens distance_code_lens =>
      (new_dynamic_codes_block snk s is_last literal_code_lens distance_code_lens).bind fun s1 =>
        tokens.foldlM (fun s2 t => write snk s2 t) s1

/-- The block loop of `deflate` (src/src/deflate.rs lines 18-30):
`for (i, block) in blocks.iter().enumerate()` with
`is_last = (i == blocks.len() - 1)`. -/
def deflate_blocks (snk : Sink) (blocks : List Block) (s : WState) : Option WState :=
  blocks.enum.foldlM (fun s1 p => emit_block snk (p.1 == blocks.length - 1) p.2 s1) s

/-- Modelled from the spec: `lempel_ziv::lempel_ziv` (module not under src/).
Spec section 4.1 leaves the search policy free and requires only that the
produced tokens reconstruct the input; the minimal conformant tokenizer emits
every input byte as a literal. -/
def lempel_ziv (file : List Nat) : List Token :=
  file.map Token.Literal

/-- Modelled from the spec: `block_splitter::block_split` (module not under
src/).  Spec section 4.2 requires a non-empty block sequence whose
concatenated tokens equal the input and permits emitting the whole token
stream as a single block; fixed codes are a permitted choice. -/
def block_split (tokens : List Token) : List Block :=
  [Block.FixedCodes tokens]

/-- Translation of `deflate` (src/src/deflate.rs lines 13-31).  The writer is dropped when it
goes out of scope at the end of the function, which runs the `Drop` code.  The
Rust function returns `()`; the model returns the final writer state (whose
`out` field is the byte stream), with `none` for a panic. -/
def deflate (snk : Sink) (file : List Nat) : Option WState :=
  (deflate_blocks snk (block_split (lempel_ziv file)) new).bind fun s => drop snk s

/-- The low `n` bits of `v`, least significant first. -/
def bitsLE (v n : Nat) : List Bool :=
  (List.range n).map v.testBit

/-- Value of a byte given as eight bits, least significant first (also defined
on shorter lists: the missing high bits count as zero). -/
def byteVal (bs : List Bool) : Nat :=
  bs.foldr (fun b acc => (if b then 1 else 0) + 2 * acc) 0

/-- Group a bit stream into bytes, least significant bit first; a trailing
group of fewer than eight bits is not a byte and is dropped. -/
def bytesOfBits : List Bool → List Nat
  | b0 :: b1 :: b2 :: b3 :: b4 :: b5 :: b6 :: b7 :: rest =>
      byteVal [b0, b1, b2, b3, b4, b5, b6, b7] :: bytesOfBits rest
  | _ => []

/-- The LSB-first bit concatenation of a sequence of `(value, n)` pairs: each
pair contributes the low `n` bits of `value`, least significant first. -/
def callBits (calls : List (Nat × Nat)) : List Bool :=
  calls.foldr (fun p acc => bitsLE p.1 p.2 ++ acc) []

/-- The bits currently buffered in the writer, least significant first. -/
def bufBits (s : WState) : List Bool :=
  bitsLE s.curr_bytes s.curr_full_bits

/-- The bit-buffer invariant of the writer: fewer than eight buffered bits,
and no set bit at or above position `curr_full_bits`. -/
def Inv (s : WState) : Prop :=
  s.curr_full_bits < 8 ∧ s.curr_bytes < 2 ^ s.curr_full_bits

theorem tb_low {a : Nat} (v : Nat) {k : Nat} (h : a < 2 ^ k) {i : Nat} (hi : i < k) :
    (a + v * 2 ^ k).testBit i = a.testBit i := by
  have h1 : (a + v * 2 ^ k) % 2 ^ k = a := by
    rw [Nat.add_mul_mod_self_right, Nat.mod_eq_of_lt h]
  have h2 := Nat.testBit_mod_two_pow (a + v * 2 ^ k) k i
  rw [h1] at h2
  simpa [hi] using h2.symm

theorem tb_high {a : Nat} (v : Nat) {k : Nat} (h : a < 2 ^ k) (j : Nat) :
    (a + v * 2 ^ k).testBit (k + j) = v.testBit j := by
  have h1 : (a + v * 2 ^ k) >>> k = v := by
    rw [Nat.shiftRight_eq_div_pow, Nat.add_mul_div_right _ _ (Nat.two_pow_pos k),
      Nat.div_eq_of_lt h, Nat.zero_add]
  calc (a + v * 2 ^ k).testBit (k + j)
      = ((a + v * 2 ^ k) >>> k).testBit j := (Nat.testBit_shiftRight _).symm
    _ = v.testBit j := by rw [h1]

theorem lor_eq_add {a : Nat} (v : Nat) {k : Nat} (h : a < 2 ^ k) :
    a ||| v <<< k = a + v * 2 ^ k := by
  apply Nat.eq_of_testBit_eq
  intro i
  rw [Nat.testBit_or, Nat.testBit_shiftLeft]
  by_cases hik : i < k
  · have hnot : ¬ (i ≥ k) := by omega
    simp [hnot, tb_low v h hik]
  · have hk : k ≤ i := Nat.le_of_not_lt hik
    have ha : a.testBit i = false :=
      Nat.testBit_lt_two_pow (lt_of_lt_of_le h (Nat.pow_le_pow_right (by omega) hk))
    have hb := tb_high v h (i - k)
    rw [Nat.add_sub_cancel' hk] at hb
    rw [hb, ha]
    simp [hk]

theorem flushLoop_lt (snk : Sink) (cb fb : Nat) (out : List Nat) (h : fb < 8) :
    flushLoop snk cb fb out = some (cb, fb, out) := by
  interval_cases fb <;> rfl

theorem flushLoop_step (snk : Sink) (cb fb : Nat) (out : List Nat) :
    flushLoop snk cb (fb + 8) out =
      if snk out.length then flushLoop snk (cb >>> 8) fb (out ++ [cb &&& 255]) else none :=
  rfl

theorem flushLoop_ok (fb : Nat) : ∀ cb out,
    flushLoop okSink cb fb out =
      some (cb >>> (8 * (fb / 8)), fb % 8,
        out ++ (List.range (fb / 8)).map (fun i => (cb >>> (8 * i)) &&& 255)) := by
  induction fb using Nat.strong_induction_on with
  | _ fb ih =>
    intro cb out
    by_cases h8 : fb < 8
    · rw [flushLoop_lt okSink cb fb out h8]
      have h0 : fb / 8 = 0 := by omega
      have h1 : fb % 8 = fb := by omega
      simp [h0, h1]
    · obtain ⟨fb1, rfl⟩ : ∃ fb1, fb = fb1 + 8 := ⟨fb - 8, by omega⟩
      rw [flushLoop_step]
      have hs : okSink out.length = true := rfl
      rw [hs, if_pos rfl, ih fb1 (by omega)]
      have hdiv : (fb1 + 8) / 8 = fb1 / 8 + 1 := by omega
      have hmod : (fb1 + 8) % 8 = fb1 % 8 := by omega
      have hsh : ∀ j : Nat, (cb >>> 8) >>> j = cb >>> (8 + j) := by
        intro j; rw [Nat.shiftRight_add]
      have hmap : (List.range (fb1 / 8 + 1)).map (fun i => (cb >>> (8 * i)) &&& 255)
          = (cb &&& 255) :: (List.range (fb1 / 8)).map (fun i => ((cb >>> 8) >>> (8 * i)) &&& 255) := by
        rw [List.range_succ_eq_map, List.map_cons, List.map_map]
        have hfun : ((fun i => cb >>> (8 * i) &&& 255) ∘ Nat.succ)
            = fun i => ((cb >>> 8) >>> (8 * i)) &&& 255 := by
          funext i
          have e1 : 8 * Nat.succ i = 8 + 8 * i := by omega
          simp only [Function.comp, e1, Nat.shiftRight_add]
        rw [hfun]
        norm_num
      rw [hdiv, hmod, hmap]
      simp only [hsh]
      have harg : 8 + 8 * (fb1 / 8) = 8 * (fb1 / 8 + 1) := by ring
      rw [harg]
      simp

theorem flushLoop_some_fb (snk : Sink) :
    ∀ (fb cb : Nat) (out : List Nat) (r : Nat × Nat × List Nat),
    flushLoop snk cb fb out = some r → r.2.1 < 8 := by
  intro fb
  induction fb using Nat.strong_induction_on with
  | _ fb ih =>
    intro cb out r h
    by_cases h8 : fb < 8
    · rw [flushLoop_lt snk cb fb out h8] at h
      cases h
      exact h8
    · obtain ⟨fb1, rfl⟩ : ∃ fb1, fb = fb1 + 8 := ⟨fb - 8, by omega⟩
      rw [flushLoop_step] at h
      split at h
      · exact ih fb1 (by omega) (cb >>> 8) (out ++ [cb &&& 255]) r h
      · exact Option.noConfusion h

theorem write_bits_some_fb (snk : Sink) (s : WState) (bits len : Nat) (s1 : WState)
    (h : write_bits snk s bits len = some s1) : s1.curr_full_bits < 8 := by
  unfold write_bits at h
  rw [Option.map_eq_some'] at h
  obtain ⟨r, hr, hs1⟩ := h
  have hfb := flushLoop_some_fb snk _ _ _ r hr
  rw [← hs1]
  exact hfb

theorem and255 (x : Nat) : x &&& 255 = x % 256 := by
  have h := Nat.and_pow_two_sub_one_eq_mod x 8
  norm_num at h
  exact h

theorem bitsLE_length (v n : Nat) : (bitsLE v n).length = n := by
  simp [bitsLE]

theorem bitsLE_split (v a m : Nat) :
    bitsLE v (a + m) = bitsLE v a ++ bitsLE (v >>> a) m := by
  unfold bitsLE
  rw [List.range_add, List.map_append, List.map_map]
  congr 1
  apply List.map_congr_left
  intro i _
  simp [Nat.testBit_shiftRight]

theorem byteVal_cons (b : Bool) (bs : List Bool) :
    byteVal (b :: bs) = (if b then 1 else 0) + 2 * byteVal bs := rfl

theorem bitsLE_succ_shift (v m : Nat) :
    bitsLE v (1 + m) = v.testBit 0 :: bitsLE (v >>> 1) m := by
  rw [bitsLE_split v 1 m]
  rfl

theorem byteVal_bitsLE (n : Nat) : ∀ v, byteVal (bitsLE v n) = v % 2 ^ n := by
  induction n with
  | zero => intro v; simp [bitsLE, byteVal]; omega
  | succ n ih =>
    intro v
    have h1 : n + 1 = 1 + n := by omega
    rw [h1, bitsLE_succ_shift, byteVal_cons, ih]
    have h2 : (if v.testBit 0 then 1 else 0) = v % 2 := by
      rcases Nat.mod_two_eq_zero_or_one v with h | h <;>
        simp [Nat.testBit_zero, h]
    have h3 : v >>> 1 = v / 2 := by
      rw [Nat.shiftRight_eq_div_pow]
    have h4 : 2 ^ (1 + n) = 2 * 2 ^ n := by
      rw [Nat.pow_add]
    rw [h2, h3, h4, Nat.mod_mul]

theorem bytesOfBits_short (bs : List Bool) (h : bs.length < 8) : bytesOfBits bs = [] := by
  rcases bs with _ | ⟨b0, _ | ⟨b1, _ | ⟨b2, _ | ⟨b3, _ | ⟨b4, _ | ⟨b5, _ | ⟨b6, _ | ⟨b7, t⟩⟩⟩⟩⟩⟩⟩⟩ <;>
    first
      | rfl
      | (exfalso; simp [List.length_cons] at h; omega)

theorem bytesOfBits_append8 (xs : List Bool) (h : xs.length = 8) (ys : List Bool) :
    bytesOfBits (xs ++ ys) = byteVal xs :: bytesOfBits ys := by
  rcases xs with _ | ⟨b0, _ | ⟨b1, _ | ⟨b2, _ | ⟨b3, _ | ⟨b4, _ | ⟨b5, _ | ⟨b6, _ | ⟨b7, t⟩⟩⟩⟩⟩⟩⟩⟩ <;>
    simp [List.length_cons] at h
  subst h
  rfl

theorem bytesOfBits_bitsLE (T : Nat) : ∀ v,
    bytesOfBits (bitsLE v T) = (List.range (T / 8)).map (fun i => (v >>> (8 * i)) % 256) := by
  induction T using Nat.strong_induction_on with
  | _ T ih =>
    intro v
    by_cases h8 : T < 8
    · have h0 : T / 8 = 0 := by omega
      rw [bytesOfBits_short _ (by rw [bitsLE_length]; omega), h0]
      rfl
    · obtain ⟨m, rfl⟩ : ∃ m, T = 8 + m := ⟨T - 8, by omega⟩
      rw [bitsLE_split v 8 m, bytesOfBits_append8 _ (bitsLE_length v 8),
        ih m (by omega), byteVal_bitsLE]
      have hdiv : (8 + m) / 8 = m / 8 + 1 := by omega
      rw [hdiv, List.range_succ_eq_map, List.map_cons, List.map_map]
      have hfun : ((fun i => (v >>> (8 * i)) % 256) ∘ Nat.succ)
          = fun i => ((v >>> 8) >>> (8 * i)) % 256 := by
        funext i
        have e1 : 8 * Nat.succ i = 8 + 8 * i := by omega
        simp only [Function.comp, e1, Nat.shiftRight_add]
      rw [hfun]
      norm_num

theorem bitsLE_drop (v a m : Nat) :
    List.drop a (bitsLE v (a + m)) = bitsLE (v >>> a) m := by
  rw [bitsLE_split]
  exact List.drop_left' (bitsLE_length v a)

theorem bitsLE_drop_bytes (v T : Nat) :
    List.drop (8 * (T / 8)) (bitsLE v T) = bitsLE (v >>> (8 * (T / 8))) (T % 8) := by
  have hT : 8 * (T / 8) + T % 8 = T := by omega
  have h := bitsLE_drop v (8 * (T / 8)) (T % 8)
  rw [hT] at h
  exact h

theorem bytesOfBits_regroup (n : Nat) : ∀ bs ys : List Bool, bs.length = n →
    bytesOfBits (bs ++ ys)
      = bytesOfBits bs ++ bytesOfBits (List.drop (8 * (bs.length / 8)) bs ++ ys) := by
  induction n using Nat.strong_induction_on with
  | _ n ih =>
    intro bs ys hlen
    by_cases h8 : bs.length < 8
    · have h0 : 8 * (bs.length / 8) = 0 := by omega
      rw [bytesOfBits_short bs h8, h0, List.drop_zero, List.nil_append]
    · obtain ⟨xs, rest, hxs, rfl⟩ : ∃ xs rest, xs.length = 8 ∧ bs = xs ++ rest :=
        ⟨bs.take 8, bs.drop 8, by simp; omega, (List.take_append_drop 8 bs).symm⟩
      rw [List.append_assoc, bytesOfBits_append8 xs hxs,
        bytesOfBits_append8 xs hxs,
        ih rest.length (by simp at hlen ⊢; omega) rest ys rfl]
      have hlen2 : (xs ++ rest).length = 8 + rest.length := by simp [hxs]
      have hdiv : 8 * ((xs ++ rest).length / 8) = 8 + 8 * (rest.length / 8) := by
        rw [hlen2]; omega
      rw [hdiv, ← List.drop_drop, List.drop_left' hxs, List.cons_append]

theorem shift_out_high {a : Nat} (v : Nat) {k : Nat} (h : a < 2 ^ k) :
    (a + v * 2 ^ k) >>> k = v := by
  rw [Nat.shiftRight_eq_div_pow, Nat.add_mul_div_right _ _ (Nat.two_pow_pos k),
    Nat.div_eq_of_lt h, Nat.zero_add]

theorem bitsLE_add_high {a : Nat} (v : Nat) {k : Nat} (h : a < 2 ^ k) (m : Nat) :
    bitsLE (a + v * 2 ^ k) (k + m) = bitsLE a k ++ bitsLE v m := by
  rw [bitsLE_split, shift_out_high v h]
  congr 1
  apply List.map_congr_left
  intro i hi
  exact tb_low v h (List.mem_range.mp hi)

theorem write_bits_eq_some (s : WState) (v n : Nat) (hfb : s.curr_full_bits < 8)
    (hcb : s.curr_bytes < 2 ^ s.curr_full_bits) (hv : v < 2 ^ n) (hn : n ≤ 16) :
    write_bits okSink s v n =
      some { s with
        curr_bytes := (s.curr_bytes + v * 2 ^ s.curr_full_bits)
          >>> (8 * ((s.curr_full_bits + n) / 8)),
        curr_full_bits := (s.curr_full_bits + n) % 8,
        out := s.out ++ (List.range ((s.curr_full_bits + n) / 8)).map
          (fun i => ((s.curr_bytes + v * 2 ^ s.curr_full_bits) >>> (8 * i)) &&& 255) } := by
  have hvs : v <<< s.curr_full_bits < 2 ^ 32 := by
    rw [Nat.shiftLeft_eq]
    calc v * 2 ^ s.curr_full_bits < 2 ^ n * 2 ^ s.curr_full_bits :=
          (Nat.mul_lt_mul_right (Nat.two_pow_pos _)).mpr hv
      _ = 2 ^ (n + s.curr_full_bits) := (Nat.pow_add 2 n s.curr_full_bits).symm
      _ ≤ 2 ^ 32 := Nat.pow_le_pow_right (by omega) (by omega)
  have e1 : (v <<< s.curr_full_bits) % 2 ^ 32 = v <<< s.curr_full_bits :=
    Nat.mod_eq_of_lt hvs
  have e2 : s.curr_bytes ||| v <<< s.curr_full_bits
      = s.curr_bytes + v * 2 ^ s.curr_full_bits := lor_eq_add v hcb
  have e3 : (s.curr_full_bits + n) % 256 = s.curr_full_bits + n :=
    Nat.mod_eq_of_lt (by omega)
  simp only [write_bits, e1, e2, e3, flushLoop_ok]
  rfl

theorem write_bits_ok (s : WState) (v n : Nat) (h : Inv s) (hv : v < 2 ^ n) (hn : n ≤ 16) :
    ∃ s1, write_bits okSink s v n = some s1 ∧
      s1.out = s.out ++ bytesOfBits (bufBits s ++ bitsLE v n) ∧
      bufBits s1 = List.drop (8 * ((s.curr_full_bits + n) / 8)) (bufBits s ++ bitsLE v n) ∧
      s1.curr_full_bits = (s.curr_full_bits + n) % 8 ∧
      Inv s1 ∧ s1.literal_tree = s.literal_tree ∧ s1.distance_tree = s.distance_tree ∧
      s1.in_block = s.in_block := by
  obtain ⟨hfb, hcb⟩ := h
  have hbv : bufBits s ++ bitsLE v n
      = bitsLE (s.curr_bytes + v * 2 ^ s.curr_full_bits) (s.curr_full_bits + n) :=
    (bitsLE_add_high v hcb n).symm
  have hVT : s.curr_bytes + v * 2 ^ s.curr_full_bits < 2 ^ (s.curr_full_bits + n) := by
    calc s.curr_bytes + v * 2 ^ s.curr_full_bits
        < 2 ^ s.curr_full_bits + v * 2 ^ s.curr_full_bits := by omega
      _ = (1 + v) * 2 ^ s.curr_full_bits := by ring
      _ ≤ 2 ^ n * 2 ^ s.curr_full_bits :=
          Nat.mul_le_mul_right _ (by omega)
      _ = 2 ^ (n + s.curr_full_bits) := (Nat.pow_add 2 n s.curr_full_bits).symm
      _ = 2 ^ (s.curr_full_bits + n) := by rw [Nat.add_comm]
  refine ⟨_, write_bits_eq_some s v n hfb hcb hv hn, ?_, ?_, rfl,
    ⟨by show (s.curr_full_bits + n) % 8 < 8; omega, ?_⟩, rfl, rfl, rfl⟩
  · show s.out ++ _ = s.out ++ _
    congr 1
    rw [hbv, bytesOfBits_bitsLE]
    apply List.map_congr_left
    intro i _
    exact and255 _
  · show bitsLE _ ((s.curr_full_bits + n) % 8) = _
    rw [hbv, bitsLE_drop_bytes]
  · show (s.curr_bytes + v * 2 ^ s.curr_full_bits)
        >>> (8 * ((s.curr_full_bits + n) / 8)) < 2 ^ ((s.curr_full_bits + n) % 8)
    rw [Nat.shiftRight_eq_div_pow]
    apply Nat.div_lt_of_lt_mul
    calc s.curr_bytes + v * 2 ^ s.curr_full_bits
        < 2 ^ (s.curr_full_bits + n) := hVT
      _ = 2 ^ (8 * ((s.curr_full_bits + n) / 8) + (s.curr_full_bits + n) % 8) := by
          congr 1; omega
      _ = 2 ^ (8 * ((s.curr_full_bits + n) / 8)) * 2 ^ ((s.curr_full_bits + n) % 8) :=
          Nat.pow_add 2 _ _

theorem callBits_cons (p : Nat × Nat) (rest : List (Nat × Nat)) :
    callBits (p :: rest) = bitsLE p.1 p.2 ++ callBits rest := rfl

theorem write_bits_list_ok (calls : List (Nat × Nat)) : ∀ s : WState, Inv s →
    (∀ p ∈ calls, p.1 < 2 ^ p.2 ∧ p.2 ≤ 16) →
    ∃ s1, write_bits_list okSink s calls = some s1 ∧
      s1.out = s.out ++ bytesOfBits (bufBits s ++ callBits calls) ∧
      Inv s1 ∧ s1.literal_tree = s.literal_tree ∧ s1.distance_tree = s.distance_tree ∧
      s1.in_block = s.in_block := by
  induction calls with
  | nil =>
    intro s hs _
    refine ⟨s, rfl, ?_, hs, rfl, rfl, rfl⟩
    have hshort : bytesOfBits (bufBits s) = [] := by
      apply bytesOfBits_short
      rw [bufBits, bitsLE_length]
      exact hs.1
    simp [callBits, hshort]
  | cons p rest ih =>
    intro s hs hp
    obtain ⟨s1, he1, hout1, hbuf1, hfb1, hInv1, hlt1, hdt1, hib1⟩ :=
      write_bits_ok s p.1 p.2 hs (hp p (by simp)).1 (hp p (by simp)).2
    obtain ⟨s2, he2, hout2, hInv2, hlt2, hdt2, hib2⟩ :=
      ih s1 hInv1 (fun q hq => hp q (by simp [hq]))
    refine ⟨s2, ?_, ?_, hInv2, by rw [hlt2, hlt1], by rw [hdt2, hdt1], by rw [hib2, hib1]⟩
    · rw [write_bits_list, he1]
      exact he2
    · rw [hout2, hout1, hbuf1, List.append_assoc]
      congr 1
      rw [callBits_cons, ← List.append_assoc]
      rw [bytesOfBits_regroup (bufBits s ++ bitsLE p.1 p.2).length _ _ rfl]
      congr 3
      rw [List.length_append, bufBits, bitsLE_length, bitsLE_length]

/-- C1 counterexample: after the calls `write_bits(256, 8)` then
`write_bits(0, 8)` the bytes sent to the sink are `[0, 1]`, while the
LSB-first bit concatenation of the pairs `(256, 8), (0, 8)` is two zero
bytes: bit 8 of the first value is not masked off by the source
(`curr_bytes |= bits << curr_full_bits` on line 57) and leaks into the
second emitted byte.  So the claimed invariant is false as stated for
arbitrary `(value, n)` pairs. -/
theorem c1_counterexample :
    (write_bits_list okSink new [(256, 8), (0, 8)]).map WState.out = some [0, 1] ∧
    bytesOfBits (callBits [(256, 8), (0, 8)]) = [0, 0] := by
  constructor <;> rfl

/-- C1 (amended): immediately after any completing `write_bits` call — for
every sink, state, value and length, with no condition on the arguments —
the buffered bit count `curr_full_bits` is strictly less than 8; and after
any sequence of `write_bits(value, n)` calls from the fresh writer in which
every call satisfies `value < 2 ^ n` and `n ≤ 16` (the 16-bit maximum
documented in the source), no call panics and the bytes sent to the sink
equal the low-to-high (LSB-first) bit concatenation of all the `(value, n)`
pairs, in call order. -/
theorem c1_write_bits_invariant (calls : List (Nat × Nat)) :
    (∀ (snk : Sink) (s : WState) (bits len : Nat) (s1 : WState),
      write_bits snk s bits len = some s1 → s1.curr_full_bits < 8) ∧
    ((∀ p ∈ calls, p.1 < 2 ^ p.2 ∧ p.2 ≤ 16) →
      ∃ s1, write_bits_list okSink new calls = some s1 ∧
        s1.curr_full_bits < 8 ∧ s1.out = bytesOfBits (callBits calls)) := by
  refine ⟨fun snk s bits len s1 h1 => write_bits_some_fb snk s bits len s1 h1, fun h => ?_⟩
  obtain ⟨s1, he, hout, hInv, -, -, -⟩ :=
    write_bits_list_ok calls new ⟨by decide, by decide⟩ h
  refine ⟨s1, he, hInv.1, ?_⟩
  rw [hout]
  rfl

theorem c1_witness :
    (∃ s1, write_bits okSink new 256 8 = some s1 ∧ s1.curr_full_bits < 8) ∧
    ((∀ p ∈ [((5 : Nat), (3 : Nat)), (129, 8)], p.1 < 2 ^ p.2 ∧ p.2 ≤ 16) ∧
      ∃ s1, write_bits_list okSink new [(5, 3), (129, 8)] = some s1 ∧
        s1.curr_full_bits < 8 ∧ s1.out = bytesOfBits (callBits [(5, 3), (129, 8)])) :=
  ⟨⟨_, rfl, (c1_write_bits_invariant []).1 okSink new 256 8 _ rfl⟩,
    by decide,
    (c1_write_bits_invariant [(5, 3), (129, 8)]).2 (by decide)⟩

/-- The rows of a lookup table run contiguously, starting at `s`: each row is
the half-open interval from its first to its second component, and each row
starts where the previous one ended. -/
def chainedB : Nat → List (Nat × Nat × Nat × Nat) → Bool
  | _, [] => true
  | s, r :: rest => (r.1 == s) && (decide (s < r.2.1)) && chainedB r.2.1 rest

/-- Upper end of the last interval of a contiguous table starting at `s`. -/
def lastEnd : Nat → List (Nat × Nat × Nat × Nat) → Nat
  | s, [] => s
  | _, r :: rest => lastEnd r.2.1 rest

theorem chainedB_mem_lo : ∀ (t : List (Nat × Nat × Nat × Nat)) (s : Nat),
    chainedB s t = true → ∀ r ∈ t, s ≤ r.1 := by
  intro t
  induction t with
  | nil => intro s _ r hr; exact absurd hr (List.not_mem_nil r)
  | cons r0 rest ih =>
    intro s hch r hr
    rw [chainedB, Bool.and_eq_true, Bool.and_eq_true] at hch
    obtain ⟨⟨h1, h2⟩, h3⟩ := hch
    have h1 : r0.1 = s := beq_iff_eq.mp h1
    have h2 : s < r0.2.1 := of_decide_eq_true h2
    rcases List.mem_cons.mp hr with rfl | hr
    · omega
    · have := ih r0.2.1 h3 r hr
      omega

theorem chainedB_cover : ∀ (t : List (Nat × Nat × Nat × Nat)) (s : Nat),
    chainedB s t = true → ∀ v, s ≤ v → v < lastEnd s t →
    ∃ r, r ∈ t ∧ r.1 ≤ v ∧ v < r.2.1 ∧
      t.find? (fun row => decide (v < row.2.1)) = some r ∧
      ∀ q ∈ t, q.1 ≤ v → v < q.2.1 → q = r := by
  intro t
  induction t with
  | nil =>
    intro s _ v hsv hlast
    rw [lastEnd] at hlast
    omega
  | cons r0 rest ih =>
    intro s hch v hsv hlast
    rw [chainedB, Bool.and_eq_true, Bool.and_eq_true] at hch
    obtain ⟨⟨h1, h2⟩, h3⟩ := hch
    have h1 : r0.1 = s := beq_iff_eq.mp h1
    have h2 : s < r0.2.1 := of_decide_eq_true h2
    have hlast2 : lastEnd s (r0 :: rest) = lastEnd r0.2.1 rest := rfl
    by_cases hv : v < r0.2.1
    · refine ⟨r0, List.mem_cons_self r0 rest, by omega, hv, ?_, ?_⟩
      · rw [List.find?_cons_of_pos _ (by simpa using hv)]
      · intro q hq hq1 hq2
        rcases List.mem_cons.mp hq with rfl | hq
        · rfl
        · have := chainedB_mem_lo rest r0.2.1 h3 q hq
          omega
    · obtain ⟨r, hrmem, hr1, hr2, hfind, huniq⟩ :=
        ih r0.2.1 h3 v (by omega) (by rw [hlast2] at hlast; exact hlast)
      refine ⟨r, List.mem_cons_of_mem r0 hrmem, hr1, hr2, ?_, ?_⟩
      · rw [List.find?_cons_of_neg _ (by simpa using hv)]
        exact hfind
      · intro q hq hq1 hq2
        rcases List.mem_cons.mp hq with rfl | hq
        · omega
        · exact huniq q hq hq1 hq2

theorem len_table_chained : chainedB 3 LEN_TO_CODE = true := by decide

theorem len_table_lastEnd : lastEnd 3 LEN_TO_CODE = 259 := by decide

theorem dist_table_chained : chainedB 1 DIST_TO_CODE = true := by decide

theorem dist_table_lastEnd : lastEnd 1 DIST_TO_CODE = 32769 := by decide

theorem len_table_extra : ∀ r ∈ LEN_TO_CODE, r.2.1 - r.1 ≤ 2 ^ r.2.2.1 := by decide

theorem dist_table_extra : ∀ r ∈ DIST_TO_CODE, r.2.1 - r.1 ≤ 2 ^ r.2.2.1 := by decide

theorem len_table_codes : ∀ r ∈ LEN_TO_CODE, r.2.2.2 ≤ 285 := by decide

theorem dist_table_codes : ∀ r ∈ DIST_TO_CODE, r.2.2.2 ≤ 29 := by decide

/-- C7: every length in [3, 258] is covered by exactly one row of
`LEN_TO_CODE`, and its offset from the row start fits in the declared number
of extra bits; analogously every distance in [1, 32768] for `DIST_TO_CODE`. -/
theorem c7_table_coverage :
    (∀ l, 3 ≤ l → l ≤ 258 →
      (∃! r, r ∈ LEN_TO_CODE ∧ r.1 ≤ l ∧ l < r.2.1) ∧
      ∀ r ∈ LEN_TO_CODE, r.1 ≤ l → l < r.2.1 → l - r.1 < 2 ^ r.2.2.1) ∧
    (∀ d, 1 ≤ d → d ≤ 32768 →
      (∃! r, r ∈ DIST_TO_CODE ∧ r.1 ≤ d ∧ d < r.2.1) ∧
      ∀ r ∈ DIST_TO_CODE, r.1 ≤ d → d < r.2.1 → d - r.1 < 2 ^ r.2.2.1) := by
  constructor
  · intro l h3 h258
    constructor
    · obtain ⟨r, hmem, h1, h2, -, huniq⟩ :=
        chainedB_cover LEN_TO_CODE 3 len_table_chained l h3
          (by rw [len_table_lastEnd]; omega)
      exact ⟨r, ⟨hmem, h1, h2⟩, fun q hq => huniq q hq.1 hq.2.1 hq.2.2⟩
    · intro r hr h1 h2
      have := len_table_extra r hr
      omega
  · intro d h1d h2d
    constructor
    · obtain ⟨r, hmem, h1, h2, -, huniq⟩ :=
        chainedB_cover DIST_TO_CODE 1 dist_table_chained d h1d
          (by rw [dist_table_lastEnd]; omega)
      exact ⟨r, ⟨hmem, h1, h2⟩, fun q hq => huniq q hq.1 hq.2.1 hq.2.2⟩
    · intro r hr h1 h2
      have := dist_table_extra r hr
      omega

theorem c7_witness :
    ((3 : Nat) ≤ 258 ∧ (258 : Nat) ≤ 258 ∧ (1 : Nat) ≤ 32768 ∧ (32768 : Nat) ≤ 32768) ∧
    (∃! r, r ∈ LEN_TO_CODE ∧ r.1 ≤ 258 ∧ 258 < r.2.1) ∧
    (∃! r, r ∈ DIST_TO_CODE ∧ r.1 ≤ 32768 ∧ 32768 < r.2.1) :=
  ⟨by omega,
    (c7_table_coverage.1 258 (by omega) (by omega)).1,
    (c7_table_coverage.2 32768 (by omega) (by omega)).1⟩

theorem write_bits_def (snk : Sink) (s : WState) (bits len : Nat) :
    write_bits snk s bits len =
      (flushLoop snk (s.curr_bytes ||| ((bits <<< s.curr_full_bits) % 2 ^ 32))
          ((s.curr_full_bits + len) % 256) s.out).map fun r =>
        { s with curr_bytes := r.1, curr_full_bits := r.2.1, out := r.2.2 } :=
  rfl

theorem write_bits_same_trees (snk : Sink) (s : WState) (b l : Nat) (s1 : WState)
    (h : write_bits snk s b l = some s1) :
    s1.literal_tree = s.literal_tree ∧ s1.distance_tree = s.distance_tree ∧
    s1.in_block = s.in_block := by
  rw [write_bits_def] at h
  cases hf : flushLoop snk (s.curr_bytes ||| ((b <<< s.curr_full_bits) % 2 ^ 32))
      ((s.curr_full_bits + l) % 256) s.out with
  | none =>
    rw [hf] at h
    exact Option.noConfusion h
  | some r =>
    rw [hf] at h
    have h2 : { s with curr_bytes := r.1, curr_full_bits := r.2.1, out := r.2.2 } = s1 :=
      Option.some.inj h
    rw [← h2]
    exact ⟨rfl, rfl, rfl⟩

theorem sub_u32_eq (a b : Nat) (hba : b ≤ a) (ha : a < 2 ^ 32) : sub_u32 a b = a - b := by
  unfold sub_u32
  have h32 : (2 : Nat) ^ 32 = 4294967296 := by norm_num
  rw [h32] at ha ⊢
  omega

/-- C3: for every token `Repeat(len, dist)` with `len` in [3, 258] and `dist`
in [1, 32768], `write` selects the unique row `r` of `LEN_TO_CODE` with
`len_start ≤ len < len_end`, emits the literal-tree code for `r.code` then
`len - len_start` as `extra_bits` raw bits, then the unique row `d` of
`DIST_TO_CODE` the same way; for `len = 258` the selected row is
`(258, 259, 0, 285)`. -/
theorem c3_repeat_emission (snk : Sink) (s : WState) (len dist : Nat)
    (h3 : 3 ≤ len) (h258 : len ≤ 258) (h1 : 1 ≤ dist) (h32768 : dist ≤ 32768)
    (hlit : 286 ≤ s.literal_tree.length) (hdst : 30 ≤ s.distance_tree.length) :
    ∃ r d hcl hcd,
      r ∈ LEN_TO_CODE ∧ r.1 ≤ len ∧ len < r.2.1 ∧
      (∀ q ∈ LEN_TO_CODE, q.1 ≤ len → len < q.2.1 → q = r) ∧
      d ∈ DIST_TO_CODE ∧ d.1 ≤ dist ∧ dist < d.2.1 ∧
      (∀ q ∈ DIST_TO_CODE, q.1 ≤ dist → dist < q.2.1 → q = d) ∧
      s.literal_tree.get? r.2.2.2 = some hcl ∧
      s.distance_tree.get? d.2.2.2 = some hcd ∧
      write snk s (Token.Repeat len dist) =
        write_bits_list snk s
          [(hcl.code, hcl.length), (len - r.1, r.2.2.1),
           (hcd.code, hcd.length), (dist - d.1, d.2.2.1)] ∧
      (len = 258 → r = (258, 259, 0, 285)) := by
  obtain ⟨r, hrmem, hr1, hr2, hrfind, hruniq⟩ :=
    chainedB_cover LEN_TO_CODE 3 len_table_chained len h3 (by rw [len_table_lastEnd]; omega)
  obtain ⟨d, hdmem, hd1, hd2, hdfind, hduniq⟩ :=
    chainedB_cover DIST_TO_CODE 1 dist_table_chained dist h1 (by rw [dist_table_lastEnd]; omega)
  have hrc : r.2.2.2 < s.literal_tree.length := by
    have := len_table_codes r hrmem; omega
  have hdc : d.2.2.2 < s.distance_tree.length := by
    have := dist_table_codes d hdmem; omega
  obtain ⟨hcl, hcl_eq⟩ : ∃ hc, s.literal_tree.get? r.2.2.2 = some hc :=
    ⟨_, List.get?_eq_get hrc⟩
  obtain ⟨hcd, hcd_eq⟩ : ∃ hc, s.distance_tree.get? d.2.2.2 = some hc :=
    ⟨_, List.get?_eq_get hdc⟩
  refine ⟨r, d, hcl, hcd, hrmem, hr1, hr2, hruniq, hdmem, hd1, hd2, hduniq,
    hcl_eq, hcd_eq, ?_, ?_⟩
  · have h2gt : (258 : Nat) < 2 ^ 32 := by norm_num
    have h2gtd : (32768 : Nat) < 2 ^ 32 := by norm_num
    have hsub1 : sub_u32 len r.1 = len - r.1 := sub_u32_eq len r.1 hr1 (by omega)
    have hsub2 : sub_u32 dist d.1 = dist - d.1 := sub_u32_eq dist d.1 hd1 (by omega)
    simp only [write, hrfind, hdfind, hcl_eq, hsub1, hsub2, Option.some_bind, write_bits_list]
    cases h2 : write_bits snk s hcl.code hcl.length with
    | none => rfl
    | some s2 =>
      simp only [Option.some_bind]
      cases h2b : write_bits snk s2 (len - r.1) r.2.2.1 with
      | none => rfl
      | some s1 =>
        simp only [Option.some_bind]
        have ht1 := (write_bits_same_trees snk s _ _ s2 h2).2.1
        have ht2 := (write_bits_same_trees snk s2 _ _ s1 h2b).2.1
        have hdist_tree : s1.distance_tree = s.distance_tree := by rw [ht2, ht1]
        rw [hdist_tree, hcd_eq]
        simp only [Option.some_bind]
        cases h4 : write_bits snk s1 hcd.code hcd.length with
        | none => rfl
        | some s4 =>
          simp only [Option.some_bind]
          cases write_bits snk s4 (dist - d.1) d.2.2.1 <;> rfl
  · intro hlen
    subst hlen
    exact (hruniq (258, 259, 0, 285) (by decide) (by decide) (by decide)).symm

/-- Tree of a given size with all-zero codes, used to instantiate theorems
about an arbitrary installed tree at a concrete state. -/
def zeroTree (n : Nat) : List HuffmanCode := List.replicate n ⟨0, 0⟩

/-- A concrete writer state with trees large enough for token emission. -/
def wstate3 : WState :=
  { out := [], curr_bytes := 0, curr_full_bits := 0,
    literal_tree := zeroTree 286, distance_tree := zeroTree 30, in_block := false }

theorem c3_witness :
    ((3 : Nat) ≤ 258 ∧ (258 : Nat) ≤ 258 ∧ (1 : Nat) ≤ 1 ∧ (1 : Nat) ≤ 32768 ∧
      286 ≤ wstate3.literal_tree.length ∧ 30 ≤ wstate3.distance_tree.length) ∧
    ∃ r d hcl hcd,
      r ∈ LEN_TO_CODE ∧ r.1 ≤ 258 ∧ 258 < r.2.1 ∧
      (∀ q ∈ LEN_TO_CODE, q.1 ≤ 258 → 258 < q.2.1 → q = r) ∧
      d ∈ DIST_TO_CODE ∧ d.1 ≤ 1 ∧ 1 < d.2.1 ∧
      (∀ q ∈ DIST_TO_CODE, q.1 ≤ 1 → 1 < q.2.1 → q = d) ∧
      wstate3.literal_tree.get? r.2.2.2 = some hcl ∧
      wstate3.distance_tree.get? d.2.2.2 = some hcd ∧
      write okSink wstate3 (Token.Repeat 258 1) =
        write_bits_list okSink wstate3
          [(hcl.code, hcl.length), (258 - r.1, r.2.2.1),
           (hcd.code, hcd.length), (1 - d.1, d.2.2.1)] ∧
      (258 = 258 → r = (258, 259, 0, 285)) :=
  ⟨⟨by omega, by omega, by omega, by omega, by decide, by decide⟩,
    c3_repeat_emission okSink wstate3 258 1 (by omega) (by omega) (by omega) (by omega)
      (by decide) (by decide)⟩

theorem write_bits_list_cons (snk : Sink) (s : WState) (p : Nat × Nat)
    (rest : List (Nat × Nat)) :
    write_bits_list snk s (p :: rest) =
      (write_bits snk s p.1 p.2).bind fun s1 => write_bits_list snk s1 rest := rfl

theorem write_bits_list_append (snk : Sink) :
    ∀ (xs ys : List (Nat × Nat)) (s : WState),
    write_bits_list snk s (xs ++ ys) =
      (write_bits_list snk s xs).bind fun s1 => write_bits_list snk s1 ys := by
  intro xs
  induction xs with
  | nil => intro ys s; rfl
  | cons p rest ih =>
    intro ys s
    rw [List.cons_append, write_bits_list_cons, write_bits_list_cons]
    cases write_bits snk s p.1 p.2 with
    | none => rfl
    | some s1 => exact ih ys s1

theorem foldlM_eq_list (snk : Sink) (body : WState → Nat → Option WState)
    (f : Nat → Nat × Nat) :
    ∀ (L : List Nat),
    (∀ st i, i ∈ L → body st i = write_bits snk st (f i).1 (f i).2) →
    ∀ s, L.foldlM body s = write_bits_list snk s (L.map f) := by
  intro L
  induction L with
  | nil => intro _ s; rfl
  | cons a L ih =>
    intro hbody s
    rw [List.foldlM_cons, hbody s a (List.mem_cons_self a L), List.map_cons,
      write_bits_list_cons]
    cases write_bits snk s (f a).1 (f a).2 with
    | none => rfl
    | some s1 => exact ih (fun st i hi => hbody st i (List.mem_cons_of_mem a hi)) s1

theorem get?_eq_some_getD {α : Type} (l : List α) (i : Nat) (d : α) (h : i < l.length) :
    l.get? i = some (l.getD i d) := by
  rw [List.getD_eq_get?, List.get?_eq_get h]
  rfl

theorem calc_codes_core_length (lens : List Nat) :
    (calc_codes_core lens).length = lens.length := by
  simp [calc_codes_core]

theorem calc_codes_eq_some {lens : List Nat} {t : List HuffmanCode}
    (h : calc_codes lens = some t) : t = calc_codes_core lens := by
  unfold calc_codes at h
  split at h
  · exact (Option.some.inj h).symm
  · exact Option.noConfusion h

theorem clen_valid : calc_codes_valid code_len_of_code = true := by decide

theorem fixed_lit_valid : calc_codes_valid LITERAL_FIXED_CODES = true := by decide

theorem fixed_dst_valid : calc_codes_valid DISTANCE_FIXED_CODES = true := by decide

theorem clen_calc :
    calc_codes code_len_of_code = some (calc_codes_core code_len_of_code) := by
  simp [calc_codes, clen_valid]

theorem fixed_lit_calc :
    calc_codes LITERAL_FIXED_CODES = some (calc_codes_core LITERAL_FIXED_CODES) := by
  simp [calc_codes, fixed_lit_valid]

theorem fixed_dst_calc :
    calc_codes DISTANCE_FIXED_CODES = some (calc_codes_core DISTANCE_FIXED_CODES) := by
  simp [calc_codes, fixed_dst_valid]

theorem install_trees_fixed (s : WState) :
    install_trees LITERAL_FIXED_CODES DISTANCE_FIXED_CODES s =
      some { s with literal_tree := calc_codes_core LITERAL_FIXED_CODES,
                    distance_tree := calc_codes_core DISTANCE_FIXED_CODES } := by
  unfold install_trees
  rw [fixed_lit_calc, Option.some_bind, fixed_dst_calc, Option.some_bind]

/-- If a block is open, `end_prior_block` is exactly the write of the code of
symbol 256 under the current literal tree; if not, it does nothing. -/
theorem end_prior_block_char (snk : Sink) (s : WState) :
    (s.in_block = true →
      end_prior_block snk s =
        (s.literal_tree.get? 256).bind fun hc => write_bits snk s hc.code hc.length) ∧
    (s.in_block = false → end_prior_block snk s = some s) := by
  constructor <;> intro h <;> simp [end_prior_block, h]

/-- Helper congruence for `Option.bind` chains. -/
theorem bind_congr_fun {α β : Type} (x : Option α) (f g : α → Option β)
    (h : ∀ a, f a = g a) : x.bind f = x.bind g := by
  cases x with
  | none => rfl
  | some a => exact h a

/-- Characterization: `new_fixed_codes_block` is the prior-block end marker, then the three
header bits `BFINAL`, `1`, `0` (BTYPE `01` LSB-first), then installation of
the fixed trees. -/
theorem new_fixed_char (snk : Sink) (s : WState) (is_final : Bool) :
    new_fixed_codes_block snk s is_final =
      (end_prior_block snk s).bind fun s0 =>
        (write_bits_list snk { s0 with in_block := true }
            [(if is_final then 1 else 0, 1), (1, 1), (0, 1)]).bind fun s3 =>
          install_trees LITERAL_FIXED_CODES DISTANCE_FIXED_CODES s3 := by
  unfold new_fixed_codes_block
  apply bind_congr_fun
  intro s0
  rw [write_bits_list_cons]
  cases write_bits snk { s0 with in_block := true } (if is_final then 1 else 0) 1 with
  | none => rfl
  | some s1 =>
    simp only [Option.some_bind]
    rw [write_bits_list_cons]
    cases write_bits snk s1 1 1 with
    | none => rfl
    | some s2 =>
      simp only [Option.some_bind]
      rw [write_bits_list_cons]
      cases write_bits snk s2 0 1 <;> rfl

/-- The part of `new_dynamic_codes_block` that follows the 3-bit header:
HLIT, HDIST, HCLEN, the three emission loops, and the tree installation. -/
def dynamic_rest (snk : Sink) (s : WState)
    (literal_code_lens distance_code_lens : List Nat) : Option WState :=
  (write_bits snk s (286 - 257) 5).bind fun s4 =>
  (write_bits snk s4 (30 - 1) 5).bind fun s5 =>
  (write_bits snk s5 (19 - 4) 4).bind fun s6 =>
  (calc_codes code_len_of_code).bind fun code_len_tree =>
  ((List.range 19).foldlM (fun st i =>
      (code_len_of_code_order.get? i).bind fun j =>
        (code_len_of_code.get? j).bind fun v =>
          write_bits snk st v 3) s6).bind fun s7 =>
  ((List.range 286).foldlM (fun st i =>
      (literal_code_lens.get? i).bind fun v =>
        (code_len_tree.get? v).bind fun hc =>
          write_bits snk st hc.code hc.length) s7).bind fun s8 =>
  ((List.range 30).foldlM (fun st i =>
      (distance_code_lens.get? i).bind fun v =>
        (code_len_tree.get? v).bind fun hc =>
          write_bits snk st hc.code hc.length) s8).bind fun s9 =>
  install_trees literal_code_lens distance_code_lens s9

/-- Characterization: `new_dynamic_codes_block` is the prior-block end marker, then the three
header bits `BFINAL`, `0`, `1` (BTYPE `10` LSB-first), then the dynamic
preamble and tree installation. -/
theorem new_dynamic_char (snk : Sink) (s : WState) (is_final : Bool)
    (literal_code_lens distance_code_lens : List Nat) :
    new_dynamic_codes_block snk s is_final literal_code_lens distance_code_lens =
      (end_prior_block snk s).bind fun s0 =>
        (write_bits_list snk { s0 with in_block := true }
            [(if is_final then 1 else 0, 1), (0, 1), (1, 1)]).bind fun s3 =>
          dynamic_rest snk s3 literal_code_lens distance_code_lens := by
  unfold new_dynamic_codes_block
  apply bind_congr_fun
  intro s0
  rw [write_bits_list_cons]
  cases write_bits snk { s0 with in_block := true } (if is_final then 1 else 0) 1 with
  | none => rfl
  | some s1 =>
    simp only [Option.some_bind]
    rw [write_bits_list_cons]
    cases write_bits snk s1 0 1 with
    | none => rfl
    | some s2 =>
      simp only [Option.some_bind]
      rw [write_bits_list_cons]
      cases write_bits snk s2 1 1 with
      | none => rfl
      | some s3 => rfl

theorem emit_block_fixed (snk : Sink) (is_last : Bool) (tokens : List Token) (s : WState) :
    emit_block snk is_last (Block.FixedCodes tokens) s =
      (new_fixed_codes_block snk s is_last).bind fun s1 =>
        tokens.foldlM (fun s2 t => write snk s2 t) s1 := rfl

theorem emit_block_dynamic (snk : Sink) (is_last : Bool) (tokens : List Token)
    (literal_code_lens distance_code_lens : List Nat) (s : WState) :
    emit_block snk is_last
        (Block.DynamicCodes tokens literal_code_lens distance_code_lens) s =
      (new_dynamic_codes_block snk s is_last literal_code_lens distance_code_lens).bind
        fun s1 => tokens.foldlM (fun s2 t => write snk s2 t) s1 := rfl

/-- The block loop with the last-block flag made structural: `is_last` is
true exactly for the final element. -/
def deflate_blocks_last_flag (snk : Sink) : List Block → WState → Option WState
  | [], s => some s
  | [b], s => emit_block snk true b s
  | b :: b2 :: rest, s =>
      (emit_block snk false b s).bind fun s1 =>
        deflate_blocks_last_flag snk (b2 :: rest) s1

theorem deflate_blocks_aux (snk : Sink) :
    ∀ (blocks : List Block) (k n : Nat) (s : WState), blocks ≠ [] →
    blocks.length + k = n →
    (blocks.enumFrom k).foldlM (fun s1 p => emit_block snk (p.1 == n - 1) p.2 s1) s
      = deflate_blocks_last_flag snk blocks s := by
  intro blocks
  induction blocks with
  | nil => intro k n s hne _; exact absurd rfl hne
  | cons b rest ih =>
    intro k n s _ hlen
    rw [List.enumFrom_cons, List.foldlM_cons]
    cases rest with
    | nil =>
      have hk : (k == n - 1) = true := by
        simp only [List.length_cons, List.length_nil] at hlen
        simp only [beq_iff_eq]
        omega
      rw [hk]
      show (emit_block snk true b s).bind
          (fun s1 => ([] : List (Nat × Block)).foldlM _ s1) = _
      rw [deflate_blocks_last_flag]
      cases emit_block snk true b s <;> rfl
    | cons b2 rest2 =>
      have hk : (k == n - 1) = false := by
        simp only [List.length_cons] at hlen
        simp only [beq_eq_false_iff_ne]
        omega
      rw [hk, deflate_blocks_last_flag]
      show (emit_block snk false b s).bind _ = (emit_block snk false b s).bind _
      apply bind_congr_fun
      intro s1
      exact ih k.succ n s1 (by simp) (by simp only [List.length_cons] at hlen ⊢; omega)

/-- C4: for every non-empty block sequence, the loop of `deflate` runs the
blocks in order with `is_last` true exactly for the final block, and each
block starts (after the prior-block end marker) with the 3-bit header
`BFINAL` then the two BTYPE bits LSB-first: `1` then `0` for a fixed block,
`0` then `1` for a dynamic block. -/
theorem c4_block_headers (snk : Sink) :
    (∀ (blocks : List Block) (s : WState), blocks ≠ [] →
      deflate_blocks snk blocks s = deflate_blocks_last_flag snk blocks s) ∧
    (∀ (s : WState) (is_final : Bool) (tokens : List Token),
      emit_block snk is_final (Block.FixedCodes tokens) s =
        ((end_prior_block snk s).bind fun s0 =>
          (write_bits_list snk { s0 with in_block := true }
              [(if is_final then 1 else 0, 1), (1, 1), (0, 1)]).bind fun s3 =>
            install_trees LITERAL_FIXED_CODES DISTANCE_FIXED_CODES s3).bind fun s4 =>
          tokens.foldlM (fun s5 t => write snk s5 t) s4) ∧
    (∀ (s : WState) (is_final : Bool) (tokens : List Token)
        (literal_code_lens distance_code_lens : List Nat),
      emit_block snk is_final
          (Block.DynamicCodes tokens literal_code_lens distance_code_lens) s =
        ((end_prior_block snk s).bind fun s0 =>
          (write_bits_list snk { s0 with in_block := true }
              [(if is_final then 1 else 0, 1), (0, 1), (1, 1)]).bind fun s3 =>
            dynamic_rest snk s3 literal_code_lens distance_code_lens).bind fun s4 =>
          tokens.foldlM (fun s5 t => write snk s5 t) s4) := by
  refine ⟨?_, ?_, ?_⟩
  · intro blocks s hne
    unfold deflate_blocks
    rw [List.enum]
    exact deflate_blocks_aux snk blocks 0 blocks.length s hne (by omega)
  · intro s is_final tokens
    rw [emit_block_fixed, new_fixed_char]
  · intro s is_final tokens lit dst
    rw [emit_block_dynamic, new_dynamic_char]

theorem c4_witness :
    ([Block.FixedCodes []] ≠ ([] : List Block)) ∧
    deflate_blocks okSink [Block.FixedCodes []] new =
      deflate_blocks_last_flag okSink [Block.FixedCodes []] new :=
  ⟨by simp, (c4_block_headers okSink).1 [Block.FixedCodes []] new (by simp)⟩

/-- C5: whenever a new block is begun while a prior block is open, the code
of symbol 256 under the prior literal tree is emitted before the 3-bit
header; and at teardown, the code of symbol 256 under the current literal
tree is emitted, after which, if the bit buffer is non-empty, exactly one
final byte is written, whose bits at and above position `curr_full_bits` are
zero, and nothing else is written. -/
theorem c5_end_of_block (snk : Sink) (s : WState) :
    (∀ is_final : Bool, s.in_block = true →
      new_fixed_codes_block snk s is_final =
        ((s.literal_tree.get? 256).bind fun hc =>
            write_bits snk s hc.code hc.length).bind fun s0 =>
          (write_bits_list snk { s0 with in_block := true }
              [(if is_final then 1 else 0, 1), (1, 1), (0, 1)]).bind fun s3 =>
            install_trees LITERAL_FIXED_CODES DISTANCE_FIXED_CODES s3) ∧
    (∀ (is_final : Bool) (lit dst : List Nat), s.in_block = true →
      new_dynamic_codes_block snk s is_final lit dst =
        ((s.literal_tree.get? 256).bind fun hc =>
            write_bits snk s hc.code hc.length).bind fun s0 =>
          (write_bits_list snk { s0 with in_block := true }
              [(if is_final then 1 else 0, 1), (0, 1), (1, 1)]).bind fun s3 =>
            dynamic_rest snk s3 lit dst) ∧
    (∀ hc : HuffmanCode, s.literal_tree.get? 256 = some hc →
      Inv s → hc.code < 2 ^ hc.length → hc.length ≤ 16 →
      ∃ s1, write_bits okSink s hc.code hc.length = some s1 ∧
        s1.curr_bytes < 2 ^ s1.curr_full_bits ∧ s1.curr_full_bits < 8 ∧
        Gziper.drop okSink s =
          some (if 0 < s1.curr_full_bits
            then { s1 with out := s1.out ++ [s1.curr_bytes] } else s1)) := by
  refine ⟨?_, ?_, ?_⟩
  · intro is_final hin
    rw [new_fixed_char, (end_prior_block_char snk s).1 hin]
  · intro is_final lit dst hin
    rw [new_dynamic_char, (end_prior_block_char snk s).1 hin]
  · intro hc hget hInv hfit hlen
    obtain ⟨s1, hwrite, -, -, -, hInv1, -, -, -⟩ := write_bits_ok s hc.code hc.length hInv hfit hlen
    obtain ⟨hfb1, hcb1⟩ := hInv1
    refine ⟨s1, hwrite, hcb1, hfb1, ?_⟩
    unfold drop
    rw [hget, Option.some_bind, hwrite, Option.some_bind]
    have hbyte : s1.curr_bytes &&& 255 = s1.curr_bytes := by
      rw [and255]
      apply Nat.mod_eq_of_lt
      calc s1.curr_bytes < 2 ^ s1.curr_full_bits := hcb1
        _ ≤ 2 ^ 8 := Nat.pow_le_pow_right (by omega) (by omega)
        _ = 256 := by norm_num
    by_cases hfb : 0 < s1.curr_full_bits
    · rw [if_pos hfb, if_pos hfb]
      have hok : okSink s1.out.length = true := rfl
      rw [hok, if_pos rfl, hbyte]
    · rw [if_neg hfb, if_neg hfb]

/-- A concrete writer state with an open block and a 257-entry literal tree. -/
def wstate5 : WState :=
  { out := [], curr_bytes := 1, curr_full_bits := 1,
    literal_tree := zeroTree 257, distance_tree := [], in_block := true }

theorem c5_witness :
    (wstate5.in_block = true ∧ wstate5.literal_tree.get? 256 = some ⟨0, 0⟩ ∧
      Inv wstate5 ∧ (0 : Nat) < 2 ^ (0 : Nat) ∧ (0 : Nat) ≤ 16) ∧
    (new_fixed_codes_block okSink wstate5 true =
      ((wstate5.literal_tree.get? 256).bind fun hc =>
          write_bits okSink wstate5 hc.code hc.length).bind fun s0 =>
        (write_bits_list okSink { s0 with in_block := true }
            [((1 : Nat), (1 : Nat)), (1, 1), (0, 1)]).bind fun s3 =>
          install_trees LITERAL_FIXED_CODES DISTANCE_FIXED_CODES s3) ∧
    (∃ s1, write_bits okSink wstate5 0 0 = some s1 ∧
      s1.curr_bytes < 2 ^ s1.curr_full_bits ∧ s1.curr_full_bits < 8 ∧
      Gziper.drop okSink wstate5 =
        some (if 0 < s1.curr_full_bits
          then { s1 with out := s1.out ++ [s1.curr_bytes] } else s1)) :=
  ⟨⟨rfl, by decide, ⟨by decide, by decide⟩, by decide, by decide⟩,
    (c5_end_of_block okSink wstate5).1 true rfl,
    (c5_end_of_block okSink wstate5).2.2 ⟨0, 0⟩ (by decide)
      ⟨by decide, by decide⟩ (by decide) (by decide)⟩

/-- The uniform code-length-code length assignment the spec describes:
length 4 for symbols 0..=15, length 0 for 16, 17, 18. -/
def code_len_assignment (j : Nat) : Nat := if j ≤ 15 then 4 else 0

/-- The `write_bits` call emitting the code-length-code Huffman code of the
code length stored at index `i` of `lens`. -/
def clen_code_call (lens : List Nat) (i : Nat) : Nat × Nat :=
  (((calc_codes_core code_len_of_code).getD (lens.getD i 0) ⟨0, 0⟩).code,
   ((calc_codes_core code_len_of_code).getD (lens.getD i 0) ⟨0, 0⟩).length)

theorem loop19_body_eq (snk : Sink) : ∀ (st : WState) (i : Nat), i ∈ List.range 19 →
    ((code_len_of_code_order.get? i).bind fun j =>
      (code_len_of_code.get? j).bind fun v =>
        write_bits snk st v 3) =
    write_bits snk st
      ((code_len_of_code.getD (code_len_of_code_order.getD i 0) 0, 3) : Nat × Nat).1
      ((code_len_of_code.getD (code_len_of_code_order.getD i 0) 0, 3) : Nat × Nat).2 := by
  intro st i hi
  have h19 : i < 19 := List.mem_range.mp hi
  interval_cases i <;> rfl

theorem loopLens_body_eq (snk : Sink) (lens : List Nat) (n : Nat)
    (hlen : n ≤ lens.length) (h18 : ∀ i, i < n → lens.getD i 0 ≤ 18) :
    ∀ (st : WState) (i : Nat), i ∈ List.range n →
    ((lens.get? i).bind fun v =>
      ((calc_codes_core code_len_of_code).get? v).bind fun hc =>
        write_bits snk st hc.code hc.length) =
    write_bits snk st (clen_code_call lens i).1 (clen_code_call lens i).2 := by
  intro st i hi
  have hin : i < n := List.mem_range.mp hi
  have h1 : lens.get? i = some (lens.getD i 0) :=
    get?_eq_some_getD lens i 0 (by omega)
  have h2 : (calc_codes_core code_len_of_code).get? (lens.getD i 0)
      = some ((calc_codes_core code_len_of_code).getD (lens.getD i 0) ⟨0, 0⟩) := by
    apply get?_eq_some_getD
    rw [calc_codes_core_length]
    have := h18 i hin
    show lens.getD i 0 < 19
    omega
  rw [h1, Option.some_bind, h2, Option.some_bind]
  rfl

theorem write_bits_list_cons2 (snk : Sink) (s : WState) (a b : Nat)
    (rest : List (Nat × Nat)) :
    write_bits_list snk s ((a, b) :: rest) =
      (write_bits snk s a b).bind fun s1 => write_bits_list snk s1 rest := rfl

/-- Characterization: `dynamic_rest` emits HLIT, HDIST, HCLEN, the 19 permuted
code-length-code lengths, the 286 literal code lengths and the 30 distance
code lengths (each as its code-length-code Huffman code), then installs the
new trees. -/
theorem dynamic_rest_char (snk : Sink) (s3 : WState) (lit dst : List Nat)
    (hlitlen : 286 ≤ lit.length) (hdstlen : 30 ≤ dst.length)
    (hlit18 : ∀ i, i < 286 → lit.getD i 0 ≤ 18)
    (hdst18 : ∀ i, i < 30 → dst.getD i 0 ≤ 18) :
    dynamic_rest snk s3 lit dst =
      (write_bits_list snk s3
          ([(29, 5), (29, 5), (15, 4)]
            ++ (List.range 19).map
                (fun i => (code_len_of_code.getD (code_len_of_code_order.getD i 0) 0, 3))
            ++ (List.range 286).map (clen_code_call lit)
            ++ (List.range 30).map (clen_code_call dst))).bind fun s9 =>
        install_trees lit dst s9 := by
  unfold dynamic_rest
  rw [clen_calc]
  simp only [Option.some_bind, show (286 - 257 : Nat) = 29 from rfl,
    show (30 - 1 : Nat) = 29 from rfl, show (19 - 4 : Nat) = 15 from rfl]
  simp only [List.append_assoc, List.cons_append, List.nil_append]
  rw [write_bits_list_cons2, Option.bind_assoc]
  apply bind_congr_fun
  intro s4
  rw [write_bits_list_cons2, Option.bind_assoc]
  apply bind_congr_fun
  intro s5
  rw [write_bits_list_cons2, Option.bind_assoc]
  apply bind_congr_fun
  intro s6
  rw [foldlM_eq_list snk _ _ (List.range 19) (loop19_body_eq snk) s6,
    write_bits_list_append, Option.bind_assoc]
  apply bind_congr_fun
  intro s7
  rw [foldlM_eq_list snk _ (clen_code_call lit) (List.range 286)
      (loopLens_body_eq snk lit 286 hlitlen hlit18) s7,
    write_bits_list_append, Option.bind_assoc]
  apply bind_congr_fun
  intro s8
  rw [foldlM_eq_list snk _ (clen_code_call dst) (List.range 30)
    (loopLens_body_eq snk dst 30 hdstlen hdst18) s8]

/-- C6: for every dynamic block begun with no block open, after the 3-bit
header the emitter writes HLIT = 29 in 5 bits, HDIST = 29 in 5 bits,
HCLEN = 15 in 4 bits, then the 19 code-length-code lengths, 3 bits each, in
the permuted order `[16, 17, 18, 0, 8, 7, 9, 6, 10, 5, 11, 4, 12, 3, 13, 2,
14, 1, 15]`, where the code-length code assigns length 4 to symbols 0..=15
and length 0 to 16, 17, 18; then the 286 literal code lengths and the 30
distance code lengths, each as its code under the code-length Huffman code. -/
theorem c6_dynamic_preamble (snk : Sink) (s : WState) (is_final : Bool)
    (lit dst : List Nat) (hib : s.in_block = false)
    (hlitlen : 286 ≤ lit.length) (hdstlen : 30 ≤ dst.length)
    (hlit18 : ∀ i, i < 286 → lit.getD i 0 ≤ 18)
    (hdst18 : ∀ i, i < 30 → dst.getD i 0 ≤ 18) :
    (new_dynamic_codes_block snk s is_final lit dst =
      (write_bits_list snk { s with in_block := true }
          ([(if is_final then 1 else 0, 1), (0, 1), (1, 1)]
            ++ [(29, 5), (29, 5), (15, 4)]
            ++ code_len_of_code_order.map (fun j => (code_len_assignment j, 3))
            ++ (List.range 286).map (clen_code_call lit)
            ++ (List.range 30).map (clen_code_call dst))).bind fun s9 =>
        install_trees lit dst s9) ∧
    code_len_of_code_order = [16, 17, 18, 0, 8, 7, 9, 6, 10, 5, 11, 4, 12, 3, 13, 2, 14, 1, 15] ∧
    (∀ j, j ≤ 18 → code_len_of_code.getD j 0 = code_len_assignment j) := by
  refine ⟨?_, rfl, by decide⟩
  have hperm : code_len_of_code_order.map (fun j => (code_len_assignment j, 3))
      = (List.range 19).map
          (fun i => (code_len_of_code.getD (code_len_of_code_order.getD i 0) 0, 3)) := by
    decide
  rw [hperm, new_dynamic_char, (end_prior_block_char snk s).2 hib, Option.some_bind]
  rw [List.append_assoc, List.append_assoc, List.append_assoc]
  rw [write_bits_list_append, Option.bind_assoc]
  apply bind_congr_fun
  intro s3
  rw [dynamic_rest_char snk s3 lit dst hlitlen hdstlen hlit18 hdst18]
  simp only [List.append_assoc]

theorem replicate_getD_zero (n i : Nat) : (List.replicate n (0 : Nat)).getD i 0 = 0 := by
  rw [List.getD_eq_getElem?_getD, List.getElem?_replicate]
  split <;> rfl

theorem c6_witness :
    (new.in_block = false ∧ 286 ≤ (List.replicate 286 (0 : Nat)).length ∧
      30 ≤ (List.replicate 30 (0 : Nat)).length ∧
      (∀ i, i < 286 → (List.replicate 286 (0 : Nat)).getD i 0 ≤ 18) ∧
      (∀ i, i < 30 → (List.replicate 30 (0 : Nat)).getD i 0 ≤ 18)) ∧
    (new_dynamic_codes_block okSink new true
        (List.replicate 286 0) (List.replicate 30 0) =
      (write_bits_list okSink { new with in_block := true }
          ([((1 : Nat), (1 : Nat)), (0, 1), (1, 1)]
            ++ [(29, 5), (29, 5), (15, 4)]
            ++ code_len_of_code_order.map (fun j => (code_len_assignment j, 3))
            ++ (List.range 286).map (clen_code_call (List.replicate 286 0))
            ++ (List.range 30).map (clen_code_call (List.replicate 30 0)))).bind fun s9 =>
        install_trees (List.replicate 286 0) (List.replicate 30 0) s9) :=
  ⟨⟨rfl, by simp, by simp, fun i _ => by rw [replicate_getD_zero]; omega,
      fun i _ => by rw [replicate_getD_zero]; omega⟩,
    (c6_dynamic_preamble okSink new true (List.replicate 286 0) (List.replicate 30 0)
      rfl (by simp) (by simp) (fun i _ => by rw [replicate_getD_zero]; omega)
      (fun i _ => by rw [replicate_getD_zero]; omega)).1⟩

theorem write_bits_okSink (s : WState) (b l : Nat) : ∃ s1, write_bits okSink s b l = some s1 := by
  rw [write_bits_def, flushLoop_ok]
  exact ⟨_, rfl⟩

theorem bind_always_none {α β : Type} (x : Option α) (f : α → Option β)
    (h : ∀ a, f a = none) : x.bind f = none := by
  cases x with
  | none => rfl
  | some a => exact h a

theorem foldlM_isSome {α : Type} :
    ∀ (L : List α) (f : WState → α → Option WState) (s : WState),
    (∀ st a, a ∈ L → ∃ st2, f st a = some st2) →
    ∃ s2, L.foldlM f s = some s2 := by
  intro L
  induction L with
  | nil => intro f s _; exact ⟨s, rfl⟩
  | cons a L ih =>
    intro f s hf
    obtain ⟨s1, hs1⟩ := hf s a (List.mem_cons_self a L)
    rw [List.foldlM_cons, hs1]
    obtain ⟨s2, hs2⟩ := ih f s1 (fun st b hb => hf st b (List.mem_cons_of_mem a hb))
    exact ⟨s2, hs2⟩

theorem foldlM_none_of_mem {α : Type} :
    ∀ (L : List α) (f : WState → α → Option WState) (a : α), a ∈ L →
    (∀ st, f st a = none) → ∀ s, L.foldlM f s = none := by
  intro L
  induction L with
  | nil => intro f a ha; exact absurd ha (List.not_mem_nil a)
  | cons b L ih =>
    intro f a ha hnone s
    rw [List.foldlM_cons]
    rcases List.mem_cons.mp ha with rfl | ha
    · rw [hnone s]
      rfl
    · cases hb : f s b with
      | none => rfl
      | some s1 =>
        show L.foldlM f s1 = none
        exact ih f a ha hnone s1

theorem foldlM_some_middle {α : Type} :
    ∀ (L : List α) (f : WState → α → Option WState) (s s2 : WState),
    L.foldlM f s = some s2 → ∀ a ∈ L, ∃ t1 t2, f t1 a = some t2 := by
  intro L
  induction L with
  | nil => intro f s s2 _ a ha; exact absurd ha (List.not_mem_nil a)
  | cons b L ih =>
    intro f s s2 h a ha
    cases hb : f s b with
    | none =>
      rw [List.foldlM_cons, hb] at h
      exact Option.noConfusion h
    | some s1 =>
      rw [List.foldlM_cons, hb] at h
      rcases List.mem_cons.mp ha with rfl | ha
      · exact ⟨s, s1, hb⟩
      · exact ih f s1 s2 h a ha

/-- C10: with a sink that never fails and no open block, when the literal
code-length slice has at least 286 entries, the distance slice at least 30,
and every entry is at most 18, all slice and code-length-tree indexing in the
preamble emission of `new_dynamic_codes_block` is in bounds and the
out-of-bounds branch is unreachable: the whole emission succeeds and the call
reduces to the final tree installation `install_trees` (whose only remaining
failure is the spec-modelled builder error `InvalidCodeLengths`).  Conversely
each precondition is necessary: a short literal slice, a short distance
slice, or an entry of at least 19 reaches the out-of-bounds branch (`none`,
the Rust panic). -/
theorem c10_dynamic_preamble_safety (s : WState) (is_final : Bool)
    (lit dst : List Nat) (hib : s.in_block = false) :
    (286 ≤ lit.length → 30 ≤ dst.length → (∀ x ∈ lit, x ≤ 18) → (∀ x ∈ dst, x ≤ 18) →
      ∃ s9, new_dynamic_codes_block okSink s is_final lit dst =
        install_trees lit dst s9) ∧
    (lit.length < 286 → new_dynamic_codes_block okSink s is_final lit dst = none) ∧
    (dst.length < 30 → new_dynamic_codes_block okSink s is_final lit dst = none) ∧
    (∀ i, i < 286 → 19 ≤ lit.getD i 0 →
      new_dynamic_codes_block okSink s is_final lit dst = none) ∧
    (∀ i, i < 30 → 19 ≤ dst.getD i 0 →
      new_dynamic_codes_block okSink s is_final lit dst = none) := by
  have hclt_len : (calc_codes_core code_len_of_code).length = 19 := by
    rw [calc_codes_core_length]
    rfl
  have hloop1 : ∀ st i, i ∈ List.range 19 →
      ∃ st2, ((code_len_of_code_order.get? i).bind fun j =>
        (code_len_of_code.get? j).bind fun v => write_bits okSink st v 3) = some st2 := by
    intro st i hi
    have h19 : i < 19 := List.mem_range.mp hi
    rw [loop19_body_eq okSink st i hi]
    exact write_bits_okSink st _ _
  refine ⟨?_, ?_, ?_, ?_, ?_⟩
  · intro hll hdl hl18 hd18
    unfold new_dynamic_codes_block
    rw [(end_prior_block_char okSink s).2 hib, Option.some_bind]
    obtain ⟨s1, h1⟩ := write_bits_okSink { s with in_block := true } (if is_final then 1 else 0) 1
    rw [h1, Option.some_bind]
    obtain ⟨s2, h2⟩ := write_bits_okSink s1 0 1
    rw [h2, Option.some_bind]
    obtain ⟨s3, h3⟩ := write_bits_okSink s2 1 1
    rw [h3, Option.some_bind]
    obtain ⟨s4, h4⟩ := write_bits_okSink s3 (286 - 257) 5
    rw [h4, Option.some_bind]
    obtain ⟨s5, h5⟩ := write_bits_okSink s4 (30 - 1) 5
    rw [h5, Option.some_bind]
    obtain ⟨s6, h6⟩ := write_bits_okSink s5 (19 - 4) 4
    rw [h6, Option.some_bind, clen_calc, Option.some_bind]
    obtain ⟨s7, h7⟩ := foldlM_isSome (List.range 19) _ s6 hloop1
    rw [h7, Option.some_bind]
    have hloop2 : ∀ st i, i ∈ List.range 286 →
        ∃ st2, ((lit.get? i).bind fun v =>
          ((calc_codes_core code_len_of_code).get? v).bind fun hc =>
            write_bits okSink st hc.code hc.length) = some st2 := by
      intro st i hi
      have hi286 : i < 286 := List.mem_range.mp hi
      have hv : lit.get? i = some (lit.getD i 0) := get?_eq_some_getD lit i 0 (by omega)
      have hmem : lit.getD i 0 ∈ lit := List.get?_mem hv
      have hv18 : lit.getD i 0 ≤ 18 := hl18 _ hmem
      rw [hv, Option.some_bind,
        get?_eq_some_getD (calc_codes_core code_len_of_code) (lit.getD i 0) ⟨0, 0⟩
          (by rw [hclt_len]; omega), Option.some_bind]
      exact write_bits_okSink st _ _
    obtain ⟨s8, h8⟩ := foldlM_isSome (List.range 286) _ s7 hloop2
    rw [h8, Option.some_bind]
    have hloop3 : ∀ st i, i ∈ List.range 30 →
        ∃ st2, ((dst.get? i).bind fun v =>
          ((calc_codes_core code_len_of_code).get? v).bind fun hc =>
            write_bits okSink st hc.code hc.length) = some st2 := by
      intro st i hi
      have hi30 : i < 30 := List.mem_range.mp hi
      have hv : dst.get? i = some (dst.getD i 0) := get?_eq_some_getD dst i 0 (by omega)
      have hmem : dst.getD i 0 ∈ dst := List.get?_mem hv
      have hv18 : dst.getD i 0 ≤ 18 := hd18 _ hmem
      rw [hv, Option.some_bind,
        get?_eq_some_getD (calc_codes_core code_len_of_code) (dst.getD i 0) ⟨0, 0⟩
          (by rw [hclt_len]; omega), Option.some_bind]
      exact write_bits_okSink st _ _
    obtain ⟨s9, h9⟩ := foldlM_isSome (List.range 30) _ s8 hloop3
    rw [h9, Option.some_bind]
    exact ⟨s9, rfl⟩
  · intro hshort
    unfold new_dynamic_codes_block
    apply bind_always_none
    intro s0
    apply bind_always_none
    intro s1
    apply bind_always_none
    intro s2
    apply bind_always_none
    intro s3
    apply bind_always_none
    intro s4
    apply bind_always_none
    intro s5
    apply bind_always_none
    intro s6
    apply bind_always_none
    intro clt
    apply bind_always_none
    intro s7
    have hnone : ∀ st, ((lit.get? lit.length).bind fun v =>
        (clt.get? v).bind fun hc =>
          write_bits okSink st hc.code hc.length) = none := by
      intro st
      rw [List.get?_eq_none.mpr (le_refl _)]
      rfl
    rw [foldlM_none_of_mem (List.range 286) _ lit.length
      (List.mem_range.mpr (by omega)) hnone s7]
    rfl
  · intro hshort
    unfold new_dynamic_codes_block
    apply bind_always_none
    intro s0
    apply bind_always_none
    intro s1
    apply bind_always_none
    intro s2
    apply bind_always_none
    intro s3
    apply bind_always_none
    intro s4
    apply bind_always_none
    intro s5
    apply bind_always_none
    intro s6
    apply bind_always_none
    intro clt
    apply bind_always_none
    intro s7
    apply bind_always_none
    intro s8
    have hnone : ∀ st, ((dst.get? dst.length).bind fun v =>
        (clt.get? v).bind fun hc =>
          write_bits okSink st hc.code hc.length) = none := by
      intro st
      rw [List.get?_eq_none.mpr (le_refl _)]
      rfl
    rw [foldlM_none_of_mem (List.range 30) _ dst.length
      (List.mem_range.mpr (by omega)) hnone s8]
    rfl
  · intro i hi286 hbig
    have hilen : i < lit.length := by
      by_contra hge
      have : lit.getD i 0 = 0 := by
        rw [List.getD_eq_getElem?_getD, List.getElem?_eq_none (by omega)]
        rfl
      omega
    unfold new_dynamic_codes_block
    apply bind_always_none
    intro s0
    apply bind_always_none
    intro s1
    apply bind_always_none
    intro s2
    apply bind_always_none
    intro s3
    apply bind_always_none
    intro s4
    apply bind_always_none
    intro s5
    apply bind_always_none
    intro s6
    rw [clen_calc, Option.some_bind]
    apply bind_always_none
    intro s7
    have hnone : ∀ st, ((lit.get? i).bind fun v =>
        ((calc_codes_core code_len_of_code).get? v).bind fun hc =>
          write_bits okSink st hc.code hc.length) = none := by
      intro st
      rw [get?_eq_some_getD lit i 0 hilen, Option.some_bind,
        List.get?_eq_none.mpr (by rw [hclt_len]; omega)]
      rfl
    rw [foldlM_none_of_mem (List.range 286) _ i (List.mem_range.mpr hi286) hnone s7]
    rfl
  · intro i hi30 hbig
    have hilen : i < dst.length := by
      by_contra hge
      have : dst.getD i 0 = 0 := by
        rw [List.getD_eq_getElem?_getD, List.getElem?_eq_none (by omega)]
        rfl
      omega
    unfold new_dynamic_codes_block
    apply bind_always_none
    intro s0
    apply bind_always_none
    intro s1
    apply bind_always_none
    intro s2
    apply bind_always_none
    intro s3
    apply bind_always_none
    intro s4
    apply bind_always_none
    intro s5
    apply bind_always_none
    intro s6
    rw [clen_calc, Option.some_bind]
    apply bind_always_none
    intro s7
    apply bind_always_none
    intro s8
    have hnone : ∀ st, ((dst.get? i).bind fun v =>
        ((calc_codes_core code_len_of_code).get? v).bind fun hc =>
          write_bits okSink st hc.code hc.length) = none := by
      intro st
      rw [get?_eq_some_getD dst i 0 hilen, Option.some_bind,
        List.get?_eq_none.mpr (by rw [hclt_len]; omega)]
      rfl
    rw [foldlM_none_of_mem (List.range 30) _ i (List.mem_range.mpr hi30) hnone s8]
    rfl

theorem c10_witness :
    (new.in_block = false ∧ 286 ≤ (List.replicate 286 (0 : Nat)).length ∧
      30 ≤ (List.replicate 30 (0 : Nat)).length ∧
      (∀ x ∈ List.replicate 286 (0 : Nat), x ≤ 18) ∧
      (∀ x ∈ List.replicate 30 (0 : Nat), x ≤ 18)) ∧
    (∃ s9, new_dynamic_codes_block okSink new true
        (List.replicate 286 0) (List.replicate 30 0) =
      install_trees (List.replicate 286 0) (List.replicate 30 0) s9) ∧
    (∀ is_final : Bool, new_dynamic_codes_block okSink new is_final [] [] = none) :=
  ⟨⟨rfl, by simp, by simp,
      fun x hx => by rw [List.eq_of_mem_replicate hx]; omega, fun x hx => by rw [List.eq_of_mem_replicate hx]; omega⟩,
    (c10_dynamic_preamble_safety new true (List.replicate 286 0) (List.replicate 30 0) rfl).1
      (by simp) (by simp)
      (fun x hx => by rw [List.eq_of_mem_replicate hx]; omega)
      (fun x hx => by rw [List.eq_of_mem_replicate hx]; omega),
    fun is_final =>
      (c10_dynamic_preamble_safety new is_final [] [] rfl).2.1 (by simp)⟩

theorem write_same_trees (snk : Sink) (s : WState) (t : Token) (s1 : WState)
    (h : write snk s t = some s1) :
    s1.literal_tree = s.literal_tree ∧ s1.distance_tree = s.distance_tree ∧
    s1.in_block = s.in_block := by
  cases t with
  | Literal v =>
    unfold write at h
    rw [Option.bind_eq_some] at h
    obtain ⟨hc, -, h⟩ := h
    exact write_bits_same_trees snk s _ _ s1 h
  | Repeat len dist =>
    cases hf1 : LEN_TO_CODE.find? (fun r => decide (len < r.2.1)) with
    | none =>
      simp only [write, hf1] at h
      rw [Option.bind_eq_some] at h
      obtain ⟨sa, hsa, hrest⟩ := h
      cases hsa
      cases hf2 : DIST_TO_CODE.find? (fun r => decide (dist < r.2.1)) with
      | none =>
        rw [hf2] at hrest
        cases hrest
        exact ⟨rfl, rfl, rfl⟩
      | some d =>
        rw [hf2] at hrest
        rw [Option.bind_eq_some] at hrest
        obtain ⟨hc, -, hrest⟩ := hrest
        rw [Option.bind_eq_some] at hrest
        obtain ⟨sb, hsb, hrest⟩ := hrest
        have h1 := write_bits_same_trees snk s _ _ sb hsb
        have h2 := write_bits_same_trees snk sb _ _ s1 hrest
        exact ⟨h2.1.trans h1.1, h2.2.1.trans h1.2.1, h2.2.2.trans h1.2.2⟩
    | some r =>
      simp only [write, hf1] at h
      rw [Option.bind_eq_some] at h
      obtain ⟨sa, hsa, hrest⟩ := h
      rw [Option.bind_eq_some] at hsa
      obtain ⟨hc, -, hsa⟩ := hsa
      rw [Option.bind_eq_some] at hsa
      obtain ⟨sb, hsb, hsa⟩ := hsa
      have h1 := write_bits_same_trees snk s _ _ sb hsb
      have h2 := write_bits_same_trees snk sb _ _ sa hsa
      have ha : sa.literal_tree = s.literal_tree ∧ sa.distance_tree = s.distance_tree ∧
          sa.in_block = s.in_block :=
        ⟨h2.1.trans h1.1, h2.2.1.trans h1.2.1, h2.2.2.trans h1.2.2⟩
      cases hf2 : DIST_TO_CODE.find? (fun r => decide (dist < r.2.1)) with
      | none =>
        rw [hf2] at hrest
        cases hrest
        exact ha
      | some d =>
        rw [hf2] at hrest
        rw [Option.bind_eq_some] at hrest
        obtain ⟨hc2, -, hrest⟩ := hrest
        rw [Option.bind_eq_some] at hrest
        obtain ⟨sc, hsc, hrest⟩ := hrest
        have h3 := write_bits_same_trees snk sa _ _ sc hsc
        have h4 := write_bits_same_trees snk sc _ _ s1 hrest
        exact ⟨(h4.1.trans h3.1).trans ha.1, (h4.2.1.trans h3.2.1).trans ha.2.1,
          (h4.2.2.trans h3.2.2).trans ha.2.2⟩

theorem fold_write_same_trees (snk : Sink) :
    ∀ (tokens : List Token) (s s1 : WState),
    tokens.foldlM (fun s2 t => write snk s2 t) s = some s1 →
    s1.literal_tree = s.literal_tree ∧ s1.distance_tree = s.distance_tree ∧
    s1.in_block = s.in_block := by
  intro tokens
  induction tokens with
  | nil =>
    intro s s1 h
    cases h
    exact ⟨rfl, rfl, rfl⟩
  | cons t rest ih =>
    intro s s1 h
    rw [List.foldlM_cons] at h
    cases hw : write snk s t with
    | none =>
      rw [hw] at h
      exact Option.noConfusion h
    | some s2 =>
      rw [hw] at h
      have h1 := write_same_trees snk s t s2 hw
      have h2 := ih s2 s1 h
      exact ⟨h2.1.trans h1.1, h2.2.1.trans h1.2.1, h2.2.2.trans h1.2.2⟩

theorem new_fixed_some_tree (snk : Sink) (s : WState) (is_final : Bool) (sa : WState)
    (h : new_fixed_codes_block snk s is_final = some sa) :
    sa.literal_tree = calc_codes_core LITERAL_FIXED_CODES ∧
    sa.distance_tree = calc_codes_core DISTANCE_FIXED_CODES := by
  unfold new_fixed_codes_block at h
  rw [Option.bind_eq_some] at h
  obtain ⟨s0, -, h⟩ := h
  rw [Option.bind_eq_some] at h
  obtain ⟨sx, -, h⟩ := h
  rw [Option.bind_eq_some] at h
  obtain ⟨sy, -, h⟩ := h
  rw [Option.bind_eq_some] at h
  obtain ⟨sz, -, h⟩ := h
  rw [install_trees_fixed] at h
  cases h
  exact ⟨rfl, rfl⟩

theorem new_dynamic_some_facts (snk : Sink) (s : WState) (is_final : Bool)
    (lit dst : List Nat) (sa : WState)
    (h : new_dynamic_codes_block snk s is_final lit dst = some sa) :
    sa.literal_tree = calc_codes_core lit ∧ 286 ≤ lit.length := by
  unfold new_dynamic_codes_block at h
  rw [Option.bind_eq_some] at h
  obtain ⟨s0, -, h⟩ := h
  rw [Option.bind_eq_some] at h
  obtain ⟨s1, -, h⟩ := h
  rw [Option.bind_eq_some] at h
  obtain ⟨s2, -, h⟩ := h
  rw [Option.bind_eq_some] at h
  obtain ⟨s3, -, h⟩ := h
  rw [Option.bind_eq_some] at h
  obtain ⟨s4, -, h⟩ := h
  rw [Option.bind_eq_some] at h
  obtain ⟨s5, -, h⟩ := h
  rw [Option.bind_eq_some] at h
  obtain ⟨s6, -, h⟩ := h
  rw [Option.bind_eq_some] at h
  obtain ⟨clt, -, h⟩ := h
  rw [Option.bind_eq_some] at h
  obtain ⟨s7, -, h⟩ := h
  rw [Option.bind_eq_some] at h
  obtain ⟨s8, hloop2, h⟩ := h
  rw [Option.bind_eq_some] at h
  obtain ⟨s9, -, h⟩ := h
  unfold install_trees at h
  rw [Option.bind_eq_some] at h
  obtain ⟨lt, hlt, h⟩ := h
  rw [Option.bind_eq_some] at h
  obtain ⟨dt, -, h⟩ := h
  cases h
  refine ⟨calc_codes_eq_some hlt, ?_⟩
  obtain ⟨t1, t2, hbody⟩ :=
    foldlM_some_middle (List.range 286) _ s7 s8 hloop2 285 (List.mem_range.mpr (by omega))
  rw [Option.bind_eq_some] at hbody
  obtain ⟨v, hv, -⟩ := hbody
  obtain ⟨hlt2, -⟩ := List.get?_eq_some.mp hv
  omega

theorem emit_block_tree (snk : Sink) (is_last : Bool) (b : Block) (s s1 : WState)
    (h : emit_block snk is_last b s = some s1) : 256 < s1.literal_tree.length := by
  cases b with
  | FixedCodes tokens =>
    rw [emit_block_fixed, Option.bind_eq_some] at h
    obtain ⟨sa, hsa, hfold⟩ := h
    have ht := (fold_write_same_trees snk tokens sa s1 hfold).1
    have h2 := (new_fixed_some_tree snk s is_last sa hsa).1
    rw [ht, h2, calc_codes_core_length]
    show 256 < LITERAL_FIXED_CODES.length
    simp [LITERAL_FIXED_CODES]
  | DynamicCodes tokens lit dst =>
    rw [emit_block_dynamic, Option.bind_eq_some] at h
    obtain ⟨sa, hsa, hfold⟩ := h
    have ht := (fold_write_same_trees snk tokens sa s1 hfold).1
    obtain ⟨htree, hlen⟩ := new_dynamic_some_facts snk s is_last lit dst sa hsa
    rw [ht, htree, calc_codes_core_length]
    omega

theorem last_flag_tree (snk : Sink) :
    ∀ (blocks : List Block) (s s1 : WState), blocks ≠ [] →
    deflate_blocks_last_flag snk blocks s = some s1 → 256 < s1.literal_tree.length := by
  intro blocks
  induction blocks with
  | nil => intro s s1 h _; exact absurd rfl h
  | cons b rest ih =>
    intro s s1 _ h
    cases rest with
    | nil => exact emit_block_tree snk true b s s1 h
    | cons b2 r2 =>
      rw [deflate_blocks_last_flag, Option.bind_eq_some] at h
      obtain ⟨sa, -, h⟩ := h
      exact ih sa s1 (by simp) h

/-- C9: teardown indexes `literal_tree[256]`; with the empty block sequence
the writer still has the empty tree from `new` and the index is out of
bounds (the panic branch, `none`); after any non-empty block sequence the
installed literal tree has more than 256 entries, so the index is in
bounds. -/
theorem c9_teardown_bounds (snk : Sink) :
    (deflate_blocks snk [] new = some new ∧ new.literal_tree = [] ∧
      Gziper.drop snk new = none) ∧
    (∀ (blocks : List Block) (s s1 : WState), blocks ≠ [] →
      deflate_blocks snk blocks s = some s1 →
      256 < s1.literal_tree.length ∧ (s1.literal_tree.get? 256).isSome) := by
  refine ⟨⟨rfl, rfl, rfl⟩, ?_⟩
  intro blocks s s1 hne h
  have heq : deflate_blocks snk blocks s = deflate_blocks_last_flag snk blocks s := by
    unfold deflate_blocks
    rw [List.enum]
    exact deflate_blocks_aux snk blocks 0 blocks.length s hne (by omega)
  rw [heq] at h
  have hlen := last_flag_tree snk blocks s s1 hne h
  exact ⟨hlen, Option.isSome_iff_exists.mpr
    ⟨_, get?_eq_some_getD s1.literal_tree 256 ⟨0, 0⟩ (by omega)⟩⟩

theorem new_fixed_okSink (s : WState) (is_final : Bool) (h : s.in_block = false) :
    ∃ s1, new_fixed_codes_block okSink s is_final = some s1 := by
  unfold new_fixed_codes_block
  rw [(end_prior_block_char okSink s).2 h, Option.some_bind]
  obtain ⟨s1, h1⟩ := write_bits_okSink { s with in_block := true } (if is_final then 1 else 0) 1
  rw [h1, Option.some_bind]
  obtain ⟨s2, h2⟩ := write_bits_okSink s1 1 1
  rw [h2, Option.some_bind]
  obtain ⟨s3, h3⟩ := write_bits_okSink s2 0 1
  rw [h3, Option.some_bind, install_trees_fixed]
  exact ⟨_, rfl⟩

theorem c9_witness :
    ([Block.FixedCodes []] ≠ ([] : List Block)) ∧
    ∃ s1, deflate_blocks okSink [Block.FixedCodes []] new = some s1 ∧
      256 < s1.literal_tree.length ∧ (s1.literal_tree.get? 256).isSome := by
  refine ⟨by simp, ?_⟩
  obtain ⟨sa, hsa⟩ := new_fixed_okSink new true rfl
  have h1 : deflate_blocks okSink [Block.FixedCodes []] new
      = ((new_fixed_codes_block okSink new true).bind fun s1 =>
          ([] : List Token).foldlM (fun s2 t => write okSink s2 t) s1).bind
            fun s2 => some s2 := rfl
  rw [hsa] at h1
  have h2 : deflate_blocks okSink [Block.FixedCodes []] new = some sa := h1.trans rfl
  exact ⟨sa, h2, (c9_teardown_bounds okSink).2 [Block.FixedCodes []] new sa (by simp) h2⟩

theorem write_literal_okSink (s : WState) (b : Nat) (hb : b < s.literal_tree.length) :
    ∃ s1, write okSink s (Token.Literal b) = some s1 := by
  show ∃ s1, ((s.literal_tree.get? b).bind fun hc =>
    write_bits okSink s hc.code hc.length) = some s1
  rw [get?_eq_some_getD s.literal_tree b ⟨0, 0⟩ hb, Option.some_bind]
  exact write_bits_okSink s _ _

theorem fold_literals_okSink :
    ∀ (bs : List Nat) (s : WState), (∀ b ∈ bs, b < s.literal_tree.length) →
    ∃ s1, (bs.map Token.Literal).foldlM (fun s2 t => write okSink s2 t) s = some s1 ∧
      s1.literal_tree = s.literal_tree := by
  intro bs
  induction bs with
  | nil => intro s _; exact ⟨s, rfl, rfl⟩
  | cons b rest ih =>
    intro s hb
    obtain ⟨s2, hs2⟩ := write_literal_okSink s b (hb b (List.mem_cons_self b rest))
    have htree := (write_same_trees okSink s _ s2 hs2).1
    obtain ⟨s1, hs1, htree1⟩ := ih s2 (fun c hc => by
      rw [htree]
      exact hb c (List.mem_cons_of_mem b hc))
    rw [List.map_cons, List.foldlM_cons, hs2]
    exact ⟨s1, hs1, htree1.trans htree⟩

theorem drop_okSink (s : WState) (h : 256 < s.literal_tree.length) :
    ∃ s1, Gziper.drop okSink s = some s1 := by
  unfold drop
  rw [get?_eq_some_getD s.literal_tree 256 ⟨0, 0⟩ h, Option.some_bind]
  obtain ⟨s1, h1⟩ := write_bits_okSink s _ _
  rw [h1, Option.some_bind]
  have hok : okSink s1.out.length = true := rfl
  rw [hok]
  split
  · exact ⟨_, if_pos rfl⟩
  · exact ⟨s1, rfl⟩

/-- C8 counterexample: with a sink whose every write fails, `deflate` of the
one-byte input `[97]` panics (the `.unwrap()` in `write_bits`, modelled
`none`): no `Result` is returned and no error value is surfaced, contrary to
the claim that the sink error comes out of the call as an `Error` value. -/
theorem c8_counterexample : deflate (fun _ => false) [97] = none := by rfl

/-- C8 (amended): `deflate` returns unit, not a `Result`; with a sink that
never fails it runs to completion on every byte input, and a failing sink
write aborts the call by panic (the `.unwrap()`), so no error value is ever
returned. -/
theorem c8_deflate_totality (file : List Nat) (h : ∀ b ∈ file, b < 256) :
    ∃ s1, deflate okSink file = some s1 := by
  obtain ⟨sa, hsa⟩ := new_fixed_okSink new true rfl
  have htree : sa.literal_tree = calc_codes_core LITERAL_FIXED_CODES :=
    (new_fixed_some_tree okSink new true sa hsa).1
  have hlen : sa.literal_tree.length = 288 := by
    rw [htree, calc_codes_core_length]
    show LITERAL_FIXED_CODES.length = 288
    simp [LITERAL_FIXED_CODES]
  obtain ⟨sb, hsb, hsbt⟩ := fold_literals_okSink file sa (fun b hb => by
    rw [hlen]
    have := h b hb
    omega)
  have h1 : deflate_blocks okSink [Block.FixedCodes (file.map Token.Literal)] new
      = ((new_fixed_codes_block okSink new true).bind fun s1 =>
          (file.map Token.Literal).foldlM (fun s2 t => write okSink s2 t) s1).bind
            fun s2 => some s2 := rfl
  rw [hsa] at h1
  simp only [Option.some_bind] at h1
  rw [hsb] at h1
  have hd : deflate_blocks okSink [Block.FixedCodes (file.map Token.Literal)] new
      = some sb := h1.trans rfl
  show ∃ s1, (deflate_blocks okSink [Block.FixedCodes (file.map Token.Literal)] new).bind
    (fun s2 => Gziper.drop okSink s2) = some s1
  rw [hd, Option.some_bind]
  apply drop_okSink
  rw [hsbt, hlen]
  omega

theorem c8_witness :
    (∀ b ∈ [(97 : Nat)], b < 256) ∧ ∃ s1, deflate okSink [97] = some s1 :=
  ⟨by decide, c8_deflate_totality [97] (by decide)⟩

end Gziper
